import Mathlib

/-!
# Verification of the merge-learning engine of `learn_bpe.py`

This file is a shallow embedding of the core of `learn_bpe.py` (a morpheme-aware
fork of subword-nmt's BPE learner) together with proofs and refutations of the
specification's claims about it.

Modelling conventions:

* Python symbols (strings) are Lean `String`s, words are `List String`,
  a vocabulary entry is `List String × Nat` (symbol sequence, frequency).
* Python `dict`s / `defaultdict`s are association lists that preserve
  insertion order, exactly as CPython dicts do; `alookupD` is `dict.get` /
  `defaultdict.__getitem__` (default without inserting -- at places where the
  insertion side effect of `defaultdict.__getitem__` is observable we model it
  explicitly), `aset` is item assignment (in-place update of an existing key,
  append of a fresh key), `adel` is `del`.
* Python ints are `Int` (frequencies in vocabulary entries are `Nat`);
  the pruning threshold, a Python float obtained from integer division
  (`max/10`, `v*i/(i+10000.0)`), is modelled as the exact fraction `Frac`
  (numerator and positive denominator, compared by cross-multiplication).
  All comparisons exercised by the concrete runs below are far from the
  floating-point rounding boundaries, where the two semantics agree.
* Fallible code (`IndexError`/`ValueError` crashes, e.g. `morpheme[0]` on an
  empty morpheme in `get_pair_statistics`, or `max()` of an empty dict) is
  modelled with `Option`: `none` is a crash.
* `replace_pair` performs the replacement with the regex
  `(?<!\S)first second(?!\S)` over the space-joined word and splits back.
  Since symbols are nonempty and contain no whitespace, this is exactly the
  left-to-right, non-overlapping token-level replacement `mergeWordTokens`
  below: the lookarounds restrict matches to whole-token boundaries and
  `re.sub` scans left to right without rescanning replacements.
-/

/-! ## Insertion-ordered association maps (CPython dict model) -/

/-- Lookup with a default value (`dict.get(k, d)`, and the read part of
`defaultdict.__getitem__`). -/
def alookupD {K V : Type*} [DecidableEq K] (d : V) : List (K × V) → K → V
  | [], _ => d
  | (k, v) :: m, q => if k = q then v else alookupD d m q

/-- Item assignment: update an existing key in place (keeping its position in
the insertion order), or append a fresh key at the end. -/
def aset {K V : Type*} [DecidableEq K] : List (K × V) → K → V → List (K × V)
  | [], q, v => [(q, v)]
  | (k, w) :: m, q, v => if k = q then (q, v) :: m else (k, w) :: aset m q v

/-- `del m[q]` (keys are unique, so removing the first occurrence is enough). -/
def adel {K V : Type*} [DecidableEq K] : List (K × V) → K → List (K × V)
  | [], _ => []
  | (k, w) :: m, q => if k = q then m else (k, w) :: adel m q

/-- `m[q] += d` on a `defaultdict(int)`. -/
def aincr {K : Type*} [DecidableEq K] (m : List (K × Int)) (q : K) (d : Int) :
    List (K × Int) :=
  aset m q (alookupD 0 m q + d)

/-- `defaultdict.__getitem__` including its insertion side effect: returns the
value (default if absent) and the possibly extended dictionary. -/
def agetDD {K V : Type*} [DecidableEq K] (d : V) (m : List (K × V)) (q : K) :
    V × List (K × V) :=
  (alookupD d m q, if (m.map Prod.fst).contains q then m else m ++ [(q, d)])

/-! ## Exact fractions for the pruning threshold -/

/-- The pruning threshold: a quotient of integers kept unnormalized (the
source computes it in floating point; we keep the exact value and only ever
compare it to integers). The denominator is positive by construction
(`10` and `i + 10000`). -/
structure Frac where
  num : Int
  den : Int
  deriving Repr, DecidableEq

/-- `(x : Int) < f` by cross-multiplication (the denominator is positive). -/
def intLtFrac (x : Int) (f : Frac) : Bool :=
  x * f.den < f.num

/-! ## Words, spans and pair statistics -/

/-- A pair of adjacent symbols. -/
abbrev SymPair := String × String

/-- `split_tuple(tpl, delim)` from the source: split a symbol sequence at every
occurrence of the delimiter symbol, keeping empty segments. -/
def split_tuple (delim : String) : List String → List (List String)
  | [] => [[]]
  | x :: xs =>
    if x = delim then [] :: split_tuple delim xs
    else match split_tuple delim xs with
      | [] => [[x]]
      | s :: ss => (x :: s) :: ss

/-- The adjacent pairs of one morpheme span, scanned left to right
(the inner loop of `get_pair_statistics`).  The Python code reads
`morpheme[0]` and so crashes on an empty span; totality is handled by the
caller (`get_pair_statistics` returns `none` in that case). -/
def spanPairs : List String → List SymPair
  | x :: y :: rest => (x, y) :: spanPairs (y :: rest)
  | _ => []

/-- All counted pairs of a word: adjacent pairs within each `"=="`-delimited
span (total version, used in statements; the faithful crashing version is
`get_pair_statistics`). -/
def wordPairs (w : List String) : List SymPair :=
  (split_tuple "==" w).flatMap spanPairs

/-- A word is well formed for pair counting when no `"=="`-delimited span is
empty (the delimiter does not occur first, last, or twice in a row). -/
def wordOk (w : List String) : Bool :=
  (split_tuple "==" w).all (fun s => !s.isEmpty)

/-- The true global frequency of a pair: the sum over all vocabulary entries of
(occurrence count inside the entry's word) × (the entry's frequency). -/
def trueFreq (vocab : List (List String × Nat)) (p : SymPair) : Int :=
  (vocab.map (fun e => (e.2 : Int) * ((wordPairs e.1).count p : Int))).sum

/-- Pair-statistics and inverted-index tables. -/
abbrev Stats := List (SymPair × Int)
abbrev Indices := List (SymPair × List (Nat × Int))

/-- The inner accumulation of `get_pair_statistics`: add one observed pair of
word `i` (weight `freq`) to the statistics and the inverted index. -/
def gpsStep (i : Nat) (freq : Nat) (si : Stats × Indices) (p : SymPair) :
    Stats × Indices :=
  (aincr si.1 p (freq : Int),
   aset si.2 p (aincr (alookupD [] si.2 p) i 1))

/-- `get_pair_statistics(vocab)`: count the frequency of all symbol pairs and
build the inverted index.  Returns `none` when some word has an empty
morpheme span, where the Python code raises `IndexError` reading the first
symbol of the empty span. -/
def get_pair_statistics (vocab : List (List String × Nat)) :
    Option (Stats × Indices) :=
  let rec go (i : Nat) (entries : List (List String × Nat))
      (acc : Stats × Indices) : Option (Stats × Indices) :=
    match entries with
    | [] => some acc
    | (w, freq) :: rest =>
      if wordOk w then go (i + 1) rest ((wordPairs w).foldl (gpsStep i freq) acc)
      else none
  go 0 vocab ([], [])

/-! ## Pair replacement -/

/-- Token-level semantics of the regex replacement in `replace_pair`:
replace every non-overlapping adjacent occurrence of `(a, b)` with the single
symbol `a ++ b`, scanning left to right. -/
def mergeWordTokens (a b : String) : List String → List String
  | x :: y :: rest =>
    if x = a ∧ y = b then (a ++ b) :: mergeWordTokens a b rest
    else x :: mergeWordTokens a b (y :: rest)
  | w => w

/-- The morpheme-boundary-collapse step at the end of `replace_pair`: if
`len(w) - 2*w.count('==') - 1 == 0`, strip all remaining delimiter symbols. -/
def collapseWord (w : List String) : List String :=
  if (w.length : Int) - 2 * (w.count "==" : Int) - 1 = 0 then
    w.filter (fun t => t ≠ "==")
  else w

/-- One iteration of the `replace_pair` loop over the inverted-index items
`(j, count)`: skip non-positive counts, otherwise rewrite the word at index
`j` (merge, then the boundary-collapse step) and record the change. -/
def replaceStep (pair : SymPair)
    (acc : List (List String × Nat) × List (Nat × List String × List String × Nat))
    (it : Nat × Int) :
    List (List String × Nat) × List (Nat × List String × List String × Nat) :=
  if it.2 < 1 then acc
  else match acc.1[it.1]? with
    | none => acc
    | some (word, freq) =>
      let nw := collapseWord (mergeWordTokens pair.1 pair.2 word)
      (acc.1.set it.1 (nw, freq), acc.2 ++ [(it.1, nw, word, freq)])

/-- `replace_pair(pair, vocab, indices)`: rewrite every word entry whose
inverted-index count for `pair` is at least 1, returning the updated
vocabulary and the list of changes `(j, new_word, old_word, freq)` in
iteration order. -/
def replace_pair (pair : SymPair) (vocab : List (List String × Nat))
    (indices : Indices) :
    List (List String × Nat) × List (Nat × List String × List String × Nat) :=
  (alookupD [] indices pair).foldl (replaceStep pair) (vocab, [])

/-! ## Incremental statistics update -/

/-- The first `while` loop of `update_pair_statistics`: scan the old word for
occurrences of the merged pair and emit the decrement events for the pairs
immediately before and after each occurrence (skipping delimiter-straddling
pairs, and not double-counting the in-between pair of two consecutive
occurrences).  `prev` is the symbol before the current scan position. -/
def oldScanEvents (a b : String) : Option String → List String → List (SymPair × Int)
  | _, [] => []
  | _, [_] => []
  | prev, x :: y :: rest =>
    if x = a ∧ y = b then
      (match prev with
       | none => []
       | some p => if p = "==" ∨ x = "==" then [] else [((p, x), -1)]) ++
      (match rest with
       | [] => []
       | z :: rest2 =>
         if z = a ∧ rest2.head? = some b then []
         else if y = "==" ∨ z = "==" then [] else [((y, z), -1)]) ++
      oldScanEvents a b (some y) rest
    else oldScanEvents a b (some x) (y :: rest)

/-- The second `while` loop of `update_pair_statistics`: scan the new word for
occurrences of the merged symbol and emit the increment events for the pairs
around each occurrence (skipping delimiter-straddling pairs, and not
double-counting between two adjacent merged symbols). -/
def newScanEvents (np : String) : Option String → List String → List (SymPair × Int)
  | _, [] => []
  | prev, x :: rest =>
    if x = np then
      (match prev with
       | none => []
       | some p => if p = "==" ∨ x = "==" then [] else [((p, x), 1)]) ++
      (match rest with
       | [] => []
       | z :: _ => if z = np then []
                   else if x = "==" ∨ z = "==" then [] else [((x, z), 1)]) ++
      newScanEvents np (some x) rest
    else newScanEvents np (some x) rest

/-- The morpheme-collapse branch of `update_pair_statistics`: add every
adjacent pair of the (collapsed, delimiter-free) new word. -/
def adjPairEvents : List String → List (SymPair × Int)
  | x :: y :: rest => ((x, y), 1) :: adjPairEvents (y :: rest)
  | _ => []

/-- The per-changed-word event list of `update_pair_statistics`. -/
def updateEvents (pair : SymPair) (word old_word : List String) :
    List (SymPair × Int) :=
  if "==" ∈ old_word ∧ "==" ∉ word then adjPairEvents word
  else oldScanEvents pair.1 pair.2 none old_word ++
       newScanEvents (pair.1 ++ pair.2) none word

/-- `update_pair_statistics(pair, changed, stats, indices)`: zero the merged
pair's statistics, reset its index, and apply the per-word delta events. -/
def update_pair_statistics (pair : SymPair)
    (changed : List (Nat × List String × List String × Nat))
    (stats : Stats) (indices : Indices) : Stats × Indices :=
  let stats := aset stats pair 0
  let indices := aset indices pair []
  changed.foldl (fun (si : Stats × Indices) ch =>
    (updateEvents pair ch.2.1 ch.2.2.1).foldl
      (fun (si : Stats × Indices) ev =>
        (aincr si.1 ev.1 (ev.2 * (ch.2.2.2 : Int)),
         aset si.2 ev.1 (aincr (alookupD [] si.2 ev.1) ch.1 ev.2)))
      si) (stats, indices)

/-! ## Pruning -/

/-- `prune_stats(stats, big_stats, threshold)`: delete every sub-threshold
entry from the working table; negative deltas are accumulated into the full
table, nonnegative values overwrite it. -/
def prune_stats (stats bigStats : Stats) (threshold : Frac) : Stats × Stats :=
  stats.foldl (fun (sb : Stats × Stats) kv =>
    if intLtFrac kv.2 threshold then
      (adel sb.1 kv.1,
       if kv.2 < 0 then aincr sb.2 kv.1 kv.2 else aset sb.2 kv.1 kv.2)
    else sb) (stats, bigStats)

/-! ## The merge-selection loop -/

/-- `max(stats, key=stats.get)`: the first entry attaining the maximal value
in iteration (= insertion) order; `none` when the dict is empty, where Python
raises `ValueError`. -/
def argmaxEntry : Stats → Option (SymPair × Int)
  | [] => none
  | (k, v) :: m =>
    match argmaxEntry m with
    | none => some (k, v)
    | some (k', v') => if v' > v then some (k', v') else some (k, v)

/-- `max(stats.values())`. -/
def maxValue (s : Stats) : Option Int :=
  (s.map Prod.snd).max?

/-- The mutable state of the `__main__` merge loop. -/
structure BpeState where
  vocab : List (List String × Nat)
  stats : Stats
  bigStats : Stats
  indices : Indices
  threshold : Frac
  rules : List SymPair
  note : Bool
  deriving Repr, DecidableEq

/-- The repair of the working table from the full statistics (the body of
`if not stats or (i and stats[most_frequent] < threshold)` in the loop):
prune into the full table, copy it back, reselect, recalibrate the threshold
with the Zipfian schedule, and prune again.  The final
`stats[most_frequent]` read is a `defaultdict` access and may insert the key.
`none` models the `ValueError` of `max()` on an empty dict. -/
def bpe_repair (i : Nat) (st : BpeState) : Option (SymPair × Int × BpeState) :=
  let (_s1, b1) := prune_stats st.stats st.bigStats st.threshold
  let s2 := b1
  match argmaxEntry s2 with
  | none => none
  | some (p', v') =>
    let thr : Frac := ⟨v' * (i : Int), (i : Int) + 10000⟩
    let (s3, b3) := prune_stats s2 b1 thr
    let (v'', s4) := agetDD 0 s3 p'
    some (p', v'', { st with stats := s4, bigStats := b3, threshold := thr })

/-- The selection phase of one loop iteration: take the working-table maximum,
repairing from the full statistics when the table is empty or (except at
iteration 0) the maximum falls below the threshold. -/
def bpe_select (i : Nat) (st : BpeState) : Option (SymPair × Int × BpeState) :=
  match argmaxEntry st.stats with
  | some (p, v) =>
    if i ≠ 0 ∧ intLtFrac v st.threshold then bpe_repair i st
    else some (p, v, st)
  | none => bpe_repair i st

/-- One iteration of the `__main__` loop (iteration counter `i`):
selection with repair, frequency-floor check, emission, replacement,
incremental update, and periodic pruning.  `none` models a crash
(`max()` of an empty dict); `Sum.inr` is the `break` on the frequency floor. -/
def bpe_step (minFreq : Int) (i : Nat) (st : BpeState) :
    Option (BpeState ⊕ BpeState) :=
  match bpe_select i st with
  | none => none
  | some (mf, v, st) =>
    if v < minFreq then some (Sum.inr { st with note := true })
    else
      let st := { st with rules := st.rules ++ [mf] }
      let indices := if (st.indices.map Prod.fst).contains mf then st.indices
                     else st.indices ++ [(mf, [])]
      let (vocab', changes) := replace_pair mf st.vocab indices
      let (stats', indices') := update_pair_statistics mf changes st.stats indices
      let stats' := aset stats' mf 0
      let st := { st with vocab := vocab', stats := stats', indices := indices' }
      if i % 100 = 0 then
        let (s, b) := prune_stats st.stats st.bigStats st.threshold
        some (Sum.inl { st with stats := s, bigStats := b })
      else some (Sum.inl st)

/-- `for i in range(symbols)` with `break` modelled by `Sum.inr`. -/
def bpe_loop (minFreq : Int) : Nat → Nat → BpeState → Option BpeState
  | 0, _, st => some st
  | n + 1, i, st =>
    match bpe_step minFreq i st with
    | none => none
    | some (Sum.inr st') => some st'
    | some (Sum.inl st') => bpe_loop minFreq n (i + 1) st'

/-- The driver after vocabulary construction: initial statistics, initial
threshold (`max(stats.values()) / 10`, crashing on an empty table), and the
merge loop. -/
def bpe_main (sortedVocab : List (List String × Nat)) (symbols : Nat)
    (minFreq : Int) : Option BpeState :=
  match get_pair_statistics sortedVocab with
  | none => none
  | some (stats, indices) =>
    match maxValue stats with
    | none => none
    | some m =>
      bpe_loop minFreq symbols 0
        ⟨sortedVocab, stats, stats, indices, ⟨m, 10⟩, [], false⟩

/-! ## Vocabulary construction (the `__main__` preamble) -/

/-- `get_vocabulary`: count word occurrences, insertion-ordered. -/
def get_vocabulary (corpus : List String) : List (String × Nat) :=
  corpus.foldl (fun v w => aset v w (alookupD 0 v w + 1)) []

/-- Python `str.split(sep)` for a nonempty separator, written with a
character-count fuel so that it is structurally recursive (and hence reduces
inside the kernel on concrete inputs). -/
def splitOnChars (delim : List Char) : Nat → List Char → List Char → List String
  | 0, acc, rest => [String.mk (acc.reverse ++ rest)]
  | _ + 1, acc, [] => [String.mk acc.reverse]
  | fuel + 1, acc, c :: cs =>
    if delim.isPrefixOf (c :: cs) then
      String.mk acc.reverse ::
        splitOnChars delim fuel [] (List.drop (delim.length - 1) cs)
    else splitOnChars delim fuel (c :: acc) cs

/-- `s.split(delim)`. -/
def strSplitOn (s delim : String) : List String :=
  splitOnChars delim.toList (s.toList.length + 1) [] s.toList

/-- Character mode: each word becomes its characters plus the end marker. -/
def vocabChar (v : List (String × Nat)) : List (List String × Nat) :=
  v.map (fun e => (e.1.toList.map (fun c => String.mk [c]) ++ ["</w>"], e.2))

/-- Morph-as-char mode: each word is split on the configured delimiter into
atomic morpheme symbols, plus the end marker. -/
def vocabMorphAsChar (delim : String) (v : List (String × Nat)) :
    List (List String × Nat) :=
  v.map (fun e => (strSplitOn e.1 delim ++ ["</w>"], e.2))

/-- Morph-aware mode: morphemes are exploded into characters with the
configured delimiter symbol inserted between them, plus the end marker. -/
def vocabMorphAware (delim : String) (v : List (String × Nat)) :
    List (List String × Nat) :=
  v.map (fun e =>
    (List.intercalate [delim]
        ((strSplitOn e.1 delim).map (fun m => m.toList.map (fun c => String.mk [c])))
      ++ ["</w>"], e.2))

/-- Stable insertion into a descending-by-frequency list (a later element is
placed after all earlier elements of greater or equal frequency), building the
stable descending sort `sorted(vocab.items(), key=..., reverse=True)`. -/
def insertDesc (x : List String × Nat) :
    List (List String × Nat) → List (List String × Nat)
  | [] => [x]
  | y :: ys => if y.2 < x.2 then x :: y :: ys else y :: insertDesc x ys

/-- Stable descending sort by frequency (insertion sort; any stable sort by
the same key produces the same list). -/
def sortedByFreq (v : List (List String × Nat)) : List (List String × Nat) :=
  v.foldl (fun acc x => insertDesc x acc) []

/-- The full pipeline in morph-as-char mode. -/
def learnBpeMorphAsChar (corpus : List String) (delim : String)
    (symbols : Nat) (minFreq : Int) : Option BpeState :=
  bpe_main (sortedByFreq (vocabMorphAsChar delim (get_vocabulary corpus)))
    symbols minFreq

/-- The full pipeline in character mode. -/
def learnBpeChar (corpus : List String) (symbols : Nat) (minFreq : Int) :
    Option BpeState :=
  bpe_main (sortedByFreq (vocabChar (get_vocabulary corpus))) symbols minFreq

/-! ## The pruning-disabled variant (for the pruning-transparency claim)

"Running with pruning disabled, i.e. always selecting the maximum over the
full, unpruned statistics": the same loop with `prune_stats` and the repair
never invoked, so the working table is the full table. -/

/-- One iteration of the loop with pruning disabled. -/
def unpruned_step (minFreq : Int) (st : BpeState) :
    Option (BpeState ⊕ BpeState) :=
  match argmaxEntry st.stats with
  | none => none
  | some (mf, v) =>
    if v < minFreq then some (Sum.inr { st with note := true })
    else
      let st := { st with rules := st.rules ++ [mf] }
      let indices := if (st.indices.map Prod.fst).contains mf then st.indices
                     else st.indices ++ [(mf, [])]
      let (vocab', changes) := replace_pair mf st.vocab indices
      let (stats', indices') := update_pair_statistics mf changes st.stats indices
      let stats' := aset stats' mf 0
      some (Sum.inl { st with vocab := vocab', stats := stats', indices := indices' })

/-- The pruning-disabled loop. -/
def unpruned_loop (minFreq : Int) : Nat → BpeState → Option BpeState
  | 0, st => some st
  | n + 1, st =>
    match unpruned_step minFreq st with
    | none => none
    | some (Sum.inr st') => some st'
    | some (Sum.inl st') => unpruned_loop minFreq n st'

/-- The pruning-disabled driver. -/
def bpe_main_unpruned (sortedVocab : List (List String × Nat)) (symbols : Nat)
    (minFreq : Int) : Option BpeState :=
  match get_pair_statistics sortedVocab with
  | none => none
  | some (stats, indices) =>
    match maxValue stats with
    | none => none
    | some m =>
      unpruned_loop minFreq symbols
        ⟨sortedVocab, stats, stats, indices, ⟨m, 10⟩, [], false⟩

/-! ## The exact (full-recount) statistics model (for the monotonicity claim)

The spec's "exact (unpruned) statistics model": at each step the statistics
are recomputed from scratch over the current vocabulary, the first maximal
pair is selected, and every word containing the pair is rewritten exactly as
`replace_pair` rewrites it. -/

/-- Rewrite the whole vocabulary for one merge under the exact model: exactly
the words containing the selected pair are rewritten (merge plus the
boundary-collapse step). -/
def exactRewrite (pair : SymPair) (vocab : List (List String × Nat)) :
    List (List String × Nat) :=
  vocab.map (fun e =>
    if (wordPairs e.1).count pair > 0 then
      (collapseWord (mergeWordTokens pair.1 pair.2 e.1), e.2)
    else e)

/-- The exact-model loop: emits the list of (selected pair, its exact global
frequency at selection time). -/
def exact_loop (minFreq : Int) : Nat → List (List String × Nat) →
    List (SymPair × Int)
  | 0, _ => []
  | n + 1, vocab =>
    match get_pair_statistics vocab with
    | none => []
    | some (stats, _) =>
      match argmaxEntry stats with
      | none => []
      | some (mf, v) =>
        if v < minFreq then []
        else (mf, v) :: exact_loop minFreq n (exactRewrite mf vocab)

/-! ## Helper lemmas on association maps -/

theorem alookupD_aset_self {K V : Type*} [DecidableEq K] (d : V)
    (m : List (K × V)) (q : K) (v : V) : alookupD d (aset m q v) q = v := by
  induction m with
  | nil => simp [aset, alookupD]
  | cons kv m ih =>
    by_cases h : kv.1 = q <;> simp [aset, alookupD, h, ih]

theorem alookupD_aset_ne {K V : Type*} [DecidableEq K] (d : V)
    (m : List (K × V)) (q q' : K) (v : V) (h : q ≠ q') :
    alookupD d (aset m q v) q' = alookupD d m q' := by
  induction m with
  | nil => simp [aset, alookupD, h]
  | cons kv m ih =>
    by_cases h' : kv.1 = q
    · subst h'; simp [aset, alookupD, h]
    · simp [aset, alookupD, h', h, ih]

theorem alookupD_aincr {K : Type*} [DecidableEq K]
    (m : List (K × Int)) (q q' : K) (x : Int) :
    alookupD 0 (aincr m q x) q' =
      alookupD 0 m q' + if q = q' then x else 0 := by
  by_cases h : q = q'
  · subst h; simp [aincr, alookupD_aset_self]
  · simp [aincr, alookupD_aset_ne _ _ _ _ _ h, h]

/-! ## C10: partiality of the initial pair count -/

theorem wordOk_iff (w : List String) :
    wordOk w = true ↔ ∀ s ∈ split_tuple "==" w, s ≠ [] := by
  simp [wordOk, List.all_eq_true, List.isEmpty_iff]

theorem gps_go_isSome (entries : List (List String × Nat)) :
    ∀ (i : Nat) (acc : Stats × Indices),
    (get_pair_statistics.go i entries acc).isSome = true ↔
      ∀ e ∈ entries, wordOk e.1 = true := by
  induction entries with
  | nil => intro i acc; simp [get_pair_statistics.go]
  | cons e rest ih =>
    intro i acc
    obtain ⟨w, f⟩ := e
    by_cases h : wordOk w
    · simp [get_pair_statistics.go, h, ih]
    · simp [get_pair_statistics.go, h]

/-- C10: `get_pair_statistics` is partial exactly on vocabularies containing a
word with an empty delimiter-separated span (where the source raises
`IndexError` reading the first symbol of the empty span, modelled as `none`);
it is total on vocabularies whose spans are all non-empty. -/
theorem C10_get_pair_statistics_partiality (vocab : List (List String × Nat)) :
    (get_pair_statistics vocab).isSome = true ↔
      ∀ e ∈ vocab, ∀ s ∈ split_tuple "==" e.1, s ≠ [] := by
  rw [get_pair_statistics, gps_go_isSome]
  constructor
  · intro h e he
    exact (wordOk_iff e.1).1 (h e he)
  · intro h e he
    exact (wordOk_iff e.1).2 (h e he)

/-! ## C8: the boundary delimiter is hardcoded, not configurable -/

/-- Modelled from the spec: pair counting that splits words into spans at the
*configured* morpheme delimiter (the spec says all boundary-delimiter handling
uses the configured delimiter option).  To be compared with the source's
`get_pair_statistics`, which splits at the literal `"=="`. -/
def specPairStatistics (delim : String) (vocab : List (List String × Nat)) :
    Option (Stats × Indices) :=
  let rec go (i : Nat) (entries : List (List String × Nat))
      (acc : Stats × Indices) : Option (Stats × Indices) :=
    match entries with
    | [] => some acc
    | (w, freq) :: rest =>
      if (split_tuple delim w).all (fun s => !s.isEmpty) then
        go (i + 1) rest
          (((split_tuple delim w).flatMap spanPairs).foldl (gpsStep i freq) acc)
      else none
  go 0 vocab ([], [])

/-- Modelled from the spec: the boundary-collapse test of `replace_pair`
performed on the *configured* delimiter. -/
def specCollapseWord (delim : String) (w : List String) : List String :=
  if (w.length : Int) - 2 * (w.count delim : Int) - 1 = 0 then
    w.filter (fun t => t ≠ delim)
  else w

/-- C8 counterexample: with the configured delimiter `"@@"` (morph-aware
vocabulary built with `"@@"` boundaries), the initial pair count does *not*
split at the configured delimiter: it counts the straddling pair
`("a", "@@")` with frequency 1, while the spec-described engine counts 0. -/
theorem C8_counterexample :
    (get_pair_statistics [(["a", "@@", "b", "</w>"], 1)]).map
        (fun si => alookupD 0 si.1 ("a", "@@")) = some 1 ∧
    (specPairStatistics "@@" [(["a", "@@", "b", "</w>"], 1)]).map
        (fun si => alookupD 0 si.1 ("a", "@@")) = some 0 := by
  exact ⟨rfl, rfl⟩

theorem specPairStatistics_go_eq (entries : List (List String × Nat)) :
    ∀ (i : Nat) (acc : Stats × Indices),
    specPairStatistics.go "==" i entries acc = get_pair_statistics.go i entries acc := by
  induction entries with
  | nil => intro i acc; rfl
  | cons e rest ih =>
    intro i acc
    obtain ⟨w, f⟩ := e
    show (if wordOk w then _ else none) = (if wordOk w then _ else none)
    by_cases h : wordOk w
    · simp only [h, if_true]
      exact ih _ _
    · simp only [h, Bool.false_eq_true, if_false]

/-- C8 amended: all boundary-delimiter handling in the engine uses the literal
`"=="` regardless of the configured delimiter option (only vocabulary
construction uses the configured delimiter); the claim's behaviour holds
exactly for the configuration in which the delimiter is `"=="`: with that
value, the spec-described initial count and boundary-collapse test coincide
with the source's. -/
theorem C8_delimiter_hardcoded :
    (∀ vocab, specPairStatistics "==" vocab = get_pair_statistics vocab) ∧
    (∀ w, specCollapseWord "==" w = collapseWord w) := by
  refine ⟨fun vocab => specPairStatistics_go_eq vocab 0 ([], []), fun w => rfl⟩

/-! ## C7: the boundary-collapse trigger -/

theorem split_tuple_ne_nil (delim : String) (w : List String) :
    split_tuple delim w ≠ [] := by
  induction w with
  | nil => simp [split_tuple]
  | cons x xs ih =>
    by_cases h : x = delim
    · simp [split_tuple, h]
    · simp only [split_tuple, h, if_false]
      cases hs : split_tuple delim xs <;> simp

theorem split_tuple_length (delim : String) (w : List String) :
    (split_tuple delim w).length = w.count delim + 1 := by
  induction w with
  | nil => simp [split_tuple]
  | cons x xs ih =>
    by_cases h : x = delim
    · subst h
      simp [split_tuple, ih, List.count_cons_self]
    · have hbx : (x == delim) = false := beq_eq_false_iff_ne.2 h
      simp only [split_tuple, h, if_false]
      cases hs : split_tuple delim xs with
      | nil => exact absurd hs (split_tuple_ne_nil delim xs)
      | cons s ss =>
        rw [hs] at ih
        simp only [List.length_cons] at ih ⊢
        simp [List.count_cons, hbx, ih]

theorem split_tuple_sum_length (delim : String) (w : List String) :
    ((split_tuple delim w).map List.length).sum + w.count delim = w.length := by
  induction w with
  | nil => simp [split_tuple]
  | cons x xs ih =>
    by_cases h : x = delim
    · subst h
      simp only [split_tuple, if_true, List.map_cons, List.sum_cons,
        List.length_nil, List.count_cons_self, List.length_cons]
      omega
    · have hbx : (x == delim) = false := beq_eq_false_iff_ne.2 h
      simp only [split_tuple, h, if_false]
      cases hs : split_tuple delim xs with
      | nil => exact absurd hs (split_tuple_ne_nil delim xs)
      | cons s ss =>
        rw [hs] at ih
        simp only [List.map_cons, List.sum_cons, List.length_cons,
          List.count_cons, hbx, Bool.false_eq_true, if_false] at ih ⊢
        omega

/-- C7 counterexample: merging `("cd", "</w>")` in the word
`a == cd </w>` produces the post-merge word `a == cd</w>`, which *still
contains* the boundary delimiter, yet `replace_pair` strips the delimiters and
stores `a cd</w>`.  The claim's condition for stripping ("the word ... no
longer contains [a boundary-delimiter symbol] after the merge") is false here
while the code strips, so the claimed `iff` fails on this input. -/
theorem C7_counterexample :
    (replace_pair ("cd", "</w>") [(["a", "==", "cd", "</w>"], 1)]
        [(("cd", "</w>"), [(0, 1)])]).1 = [(["a", "cd</w>"], 1)] ∧
    mergeWordTokens "cd" "</w>" ["a", "==", "cd", "</w>"] =
      ["a", "==", "cd</w>"] ∧
    "==" ∈ mergeWordTokens "cd" "</w>" ["a", "==", "cd", "</w>"] := by
  refine ⟨rfl, rfl, by decide⟩

/-- C7 amended: `replace_pair` strips all boundary delimiters from the
post-merge word exactly when the token count equals twice the delimiter count
plus one; in particular a word each of whose delimiter-separated spans has
fully merged into a single token (as for a morph-aware word whose morphemes
all collapse) is stored with zero residual boundary delimiters. -/
theorem C7_collapse_strips_all (w : List String)
    (h : ∀ s ∈ split_tuple "==" w, s.length = 1) :
    collapseWord w = w.filter (fun t => t ≠ "==") ∧ "==" ∉ collapseWord w := by
  have hlen : ((split_tuple "==" w).map List.length).sum =
      (split_tuple "==" w).length := by
    rw [List.sum_eq_card_nsmul ((split_tuple "==" w).map List.length) 1]
    · simp
    · intro x hx
      obtain ⟨s, hs, rfl⟩ := List.mem_map.1 hx
      exact h s hs
  have htot := split_tuple_sum_length "==" w
  rw [hlen, split_tuple_length "==" w] at htot
  have hcond : (w.length : Int) - 2 * (w.count "==" : Int) - 1 = 0 := by
    omega
  constructor
  · simp [collapseWord, hcond]
  · rw [collapseWord, if_pos hcond]
    simp

/-! ## C4: rule count versus symbol budget -/

theorem aset_ne_nil {K V : Type*} [DecidableEq K] (m : List (K × V)) (q : K)
    (v : V) : aset m q v ≠ [] := by
  cases m with
  | nil => simp [aset]
  | cons kv m =>
    by_cases h : kv.1 = q <;> simp [aset, h]

theorem aincr_ne_nil (m : List (SymPair × Int)) (q : SymPair) (d : Int) :
    aincr m q d ≠ [] := aset_ne_nil m q _

theorem argmaxEntry_of_ne_nil (s : Stats) (h : s ≠ []) :
    ∃ e, argmaxEntry s = some e := by
  cases s with
  | nil => exact absurd rfl h
  | cons kv m =>
    simp only [argmaxEntry]
    cases argmaxEntry m with
    | none => exact ⟨kv, rfl⟩
    | some e =>
      by_cases hc : e.2 > kv.2 <;> simp [hc]

theorem prune_stats_big_ne_nil (s b : Stats) (t : Frac) (hb : b ≠ []) :
    (prune_stats s b t).2 ≠ [] := by
  have aux : ∀ (l : List (SymPair × Int)) (acc : Stats × Stats), acc.2 ≠ [] →
      (l.foldl (fun (sb : Stats × Stats) kv =>
        if intLtFrac kv.2 t then
          (adel sb.1 kv.1,
           if kv.2 < 0 then aincr sb.2 kv.1 kv.2 else aset sb.2 kv.1 kv.2)
        else sb) acc).2 ≠ [] := by
    intro l
    induction l with
    | nil => intro acc h; exact h
    | cons kv l ih =>
      intro acc h
      simp only [List.foldl_cons]
      apply ih
      by_cases h1 : intLtFrac kv.2 t
      · rw [if_pos h1]
        by_cases h2 : kv.2 < 0
        · simpa [h2] using aincr_ne_nil acc.2 kv.1 kv.2
        · simpa [h2] using aset_ne_nil acc.2 kv.1 kv.2
      · rwa [if_neg h1]
  exact aux s (s, b) hb

/-- `replace_pair` never adds or removes vocabulary entries and never touches
an entry's frequency: it only replaces symbol sequences in place. -/
theorem replace_pair_frame (pair : SymPair) (vocab : List (List String × Nat))
    (indices : Indices) :
    (replace_pair pair vocab indices).1.length = vocab.length ∧
    ∀ j : Nat, ((replace_pair pair vocab indices).1[j]?).map Prod.snd =
         (vocab[j]?).map Prod.snd := by
  have aux : ∀ (items : List (Nat × Int))
      (acc : List (List String × Nat) × List (Nat × List String × List String × Nat)),
      (items.foldl (replaceStep pair) acc).1.length = acc.1.length ∧
      ∀ j : Nat, ((items.foldl (replaceStep pair) acc).1[j]?).map Prod.snd
          = (acc.1[j]?).map Prod.snd := by
    intro items
    induction items with
    | nil => intro acc; exact ⟨rfl, fun j => rfl⟩
    | cons it items ih =>
      intro acc
      simp only [List.foldl_cons]
      by_cases h1 : it.2 < 1
      · rw [show replaceStep pair acc it = acc from by
          simp [replaceStep, h1]]
        exact ih acc
      · cases hg : acc.1[it.1]? with
        | none =>
          rw [show replaceStep pair acc it = acc from by
            simp [replaceStep, h1, hg]]
          exact ih acc
        | some e =>
          obtain ⟨word, freq⟩ := e
          rw [show replaceStep pair acc it = (acc.1.set it.1
              (collapseWord (mergeWordTokens pair.1 pair.2 word), freq),
              acc.2 ++ [(it.1, collapseWord (mergeWordTokens pair.1 pair.2 word),
                word, freq)]) from by
            simp [replaceStep, h1, hg]]
          obtain ⟨ihl, ihg⟩ := ih (acc.1.set it.1
            (collapseWord (mergeWordTokens pair.1 pair.2 word), freq),
            acc.2 ++ [(it.1, collapseWord (mergeWordTokens pair.1 pair.2 word), word, freq)])
          refine ⟨by simpa using ihl, fun j => ?_⟩
          rw [ihg j]
          by_cases hj : it.1 = j
          · subst hj
            obtain ⟨hlt, _⟩ := List.getElem?_eq_some_iff.1 hg
            rw [List.getElem?_set_self hlt, hg]
            rfl
          · rw [List.getElem?_set_ne hj]
  exact aux (alookupD [] indices pair) (vocab, [])

theorem bpe_repair_spec (i : Nat) (st : BpeState) (hb : st.bigStats ≠ []) :
    ∃ p v st', bpe_repair i st = some (p, v, st') ∧
      st'.bigStats ≠ [] ∧ st'.rules = st.rules ∧ st'.note = st.note ∧
      st'.vocab = st.vocab ∧ st'.indices = st.indices := by
  unfold bpe_repair
  rcases hpr : prune_stats st.stats st.bigStats st.threshold with ⟨s1, b1⟩
  have hb1 : b1 ≠ [] := by
    have := prune_stats_big_ne_nil st.stats st.bigStats st.threshold hb
    rwa [hpr] at this
  obtain ⟨⟨p', v'⟩, hmax⟩ := argmaxEntry_of_ne_nil b1 hb1
  rcases hpr2 : prune_stats b1 b1 ⟨v' * (i : Int), (i : Int) + 10000⟩
    with ⟨s3, b3⟩
  have hb3 : b3 ≠ [] := by
    have := prune_stats_big_ne_nil b1 b1 ⟨v' * (i : Int), (i : Int) + 10000⟩ hb1
    rwa [hpr2] at this
  refine ⟨p', (agetDD 0 s3 p').1,
    { st with stats := (agetDD 0 s3 p').2, bigStats := b3,
              threshold := ⟨v' * (i : Int), (i : Int) + 10000⟩ },
    ?_, hb3, rfl, rfl, rfl, rfl⟩
  simp only [hmax, hpr2]

theorem bpe_select_spec (i : Nat) (st : BpeState) (hb : st.bigStats ≠ []) :
    ∃ p v st', bpe_select i st = some (p, v, st') ∧
      st'.bigStats ≠ [] ∧ st'.rules = st.rules ∧ st'.note = st.note ∧
      st'.vocab = st.vocab ∧ st'.indices = st.indices := by
  unfold bpe_select
  cases hm : argmaxEntry st.stats with
  | none => exact bpe_repair_spec i st hb
  | some e =>
    obtain ⟨p, v⟩ := e
    dsimp only
    by_cases hc : i ≠ 0 ∧ intLtFrac v st.threshold = true
    · rw [if_pos hc]
      exact bpe_repair_spec i st hb
    · rw [if_neg hc]
      exact ⟨p, v, st, rfl, hb, rfl, rfl, rfl, rfl⟩

theorem bpe_step_spec (minFreq : Int) (i : Nat) (st : BpeState)
    (hb : st.bigStats ≠ []) :
    (∃ st', bpe_step minFreq i st = some (Sum.inr st') ∧
       st'.rules = st.rules ∧ st'.note = true ∧ st'.vocab = st.vocab) ∨
    (∃ st', bpe_step minFreq i st = some (Sum.inl st') ∧
       st'.bigStats ≠ [] ∧ st'.rules.length = st.rules.length + 1 ∧
       st'.note = st.note ∧ st'.vocab.length = st.vocab.length ∧
       ∀ j : Nat, (st'.vocab[j]?).map Prod.snd = (st.vocab[j]?).map Prod.snd) := by
  unfold bpe_step
  obtain ⟨p, v, st1, hsel, hb1, hr, hn, hvv, _⟩ := bpe_select_spec i st hb
  rw [hsel]
  dsimp only
  by_cases hv : v < minFreq
  · left
    exact ⟨{ st1 with note := true }, by rw [if_pos hv], by simp [hr], rfl,
      by simp [hvv]⟩
  · right
    rw [if_neg hv]
    rcases hrp : replace_pair p st1.vocab
        (if (st1.indices.map Prod.fst).contains p then st1.indices
         else st1.indices ++ [(p, [])]) with ⟨vocab', changes⟩
    rcases hup : update_pair_statistics p changes st1.stats
        (if (st1.indices.map Prod.fst).contains p then st1.indices
         else st1.indices ++ [(p, [])]) with ⟨stats', indices'⟩
    have hfr := replace_pair_frame p st1.vocab
        (if (st1.indices.map Prod.fst).contains p then st1.indices
         else st1.indices ++ [(p, [])])
    rw [hrp] at hfr
    have hfl : vocab'.length = st.vocab.length := by rw [hfr.1, hvv]
    have hfg : ∀ j : Nat, (vocab'[j]?).map Prod.snd =
        (st.vocab[j]?).map Prod.snd := by
      intro j
      rw [hfr.2 j, hvv]
    by_cases hi : i % 100 = 0
    · rcases hps : prune_stats (aset stats' p 0) st1.bigStats st1.threshold
        with ⟨s, b⟩
      have hbne : b ≠ [] := by
        have := prune_stats_big_ne_nil (aset stats' p 0) st1.bigStats
          st1.threshold hb1
        rwa [hps] at this
      refine ⟨{ vocab := vocab', stats := s, bigStats := b, indices := indices',
                threshold := st1.threshold, rules := st1.rules ++ [p],
                note := st1.note }, ?_, hbne, ?_, ?_, hfl, hfg⟩
      · simp only [hrp, hup, hps, hi, if_true]
      · simp [hr]
      · simp [hn]
    · refine ⟨{ vocab := vocab', stats := aset stats' p 0,
                bigStats := st1.bigStats, indices := indices',
                threshold := st1.threshold, rules := st1.rules ++ [p],
                note := st1.note }, ?_, hb1, ?_, ?_, hfl, hfg⟩
      · simp only [hrp, hup, hi, if_false]
      · simp [hr]
      · simp [hn]

theorem bpe_loop_spec (minFreq : Int) :
    ∀ (n i : Nat) (st : BpeState), st.bigStats ≠ [] →
    ∃ st', bpe_loop minFreq n i st = some st' ∧
      st'.rules.length ≤ st.rules.length + n ∧
      (st'.note = false →
        st.note = false ∧ st'.rules.length = st.rules.length + n) ∧
      st'.vocab.length = st.vocab.length ∧
      (∀ j : Nat, (st'.vocab[j]?).map Prod.snd = (st.vocab[j]?).map Prod.snd) := by
  intro n
  induction n with
  | zero =>
    intro i st hb
    exact ⟨st, rfl, by omega, fun h => ⟨h, rfl⟩, rfl, fun j => rfl⟩
  | succ n ih =>
    intro i st hb
    rcases bpe_step_spec minFreq i st hb with
      ⟨st1, hstep, hr, hnote, hvoc⟩ | ⟨st1, hstep, hb1, hlen, hnote, hvl, hvg⟩
    · refine ⟨st1, ?_, ?_, ?_, by rw [hvoc], fun j => by rw [hvoc]⟩
      · simp [bpe_loop, hstep]
      · rw [hr]; omega
      · intro h; rw [hnote] at h; cases h
    · obtain ⟨st', hloop, hle, hexact, hvl2, hvg2⟩ := ih (i + 1) st1 hb1
      refine ⟨st', ?_, ?_, ?_, by omega, fun j => by rw [hvg2 j, hvg j]⟩
      · simp [bpe_loop, hstep, hloop]
      · omega
      · intro h
        obtain ⟨h1, h2⟩ := hexact h
        rw [hnote] at h1
        exact ⟨h1, by omega⟩

/-- C4 counterexample: on the empty corpus with symbol budget 1, the program
crashes computing the initial threshold (`max()` of an empty dict) before the
loop: no state is produced, zero rules are written although the budget is 1,
and no frequency-floor diagnostic is emitted -- contradicting "the number of
rules equals the budget exactly unless the loop stopped early because no pair
reached the floor". -/
theorem C4_counterexample :
    learnBpeChar [] 1 2 = none ∧
    ¬ ∃ st, learnBpeChar [] 1 2 = some st ∧
        (st.rules.length = 1 ∨ st.note = true) := by
  refine ⟨rfl, ?_⟩
  rintro ⟨st, h, _⟩
  rw [show learnBpeChar [] 1 2 = none from rfl] at h
  exact Option.noConfusion h

/-- C4 amended: for every vocabulary on which initialization succeeds (the
pair statistics are computable and non-empty, so the threshold line does not
crash), the merge loop terminates normally with at most `symbols` rules, and
with exactly `symbols` rules unless the frequency-floor break fired and set
the diagnostic note. -/
theorem C4_budget_and_floor (vocab : List (List String × Nat)) (symbols : Nat)
    (minFreq : Int) (stats : Stats) (indices : Indices) (m : Int)
    (h1 : get_pair_statistics vocab = some (stats, indices))
    (h2 : maxValue stats = some m) :
    ∃ st, bpe_main vocab symbols minFreq = some st ∧
      st.rules.length ≤ symbols ∧
      (st.note = false → st.rules.length = symbols) ∧
      (st.rules.length ≠ symbols → st.note = true) := by
  have hne : stats ≠ [] := by
    intro h
    subst h
    simp [maxValue] at h2
  obtain ⟨st, hloop, hle, hex, _, _⟩ :=
    bpe_loop_spec minFreq symbols 0
      ⟨vocab, stats, stats, indices, ⟨m, 10⟩, [], false⟩ hne
  refine ⟨st, ?_, by simpa using hle, fun h => by simpa using (hex h).2, ?_⟩
  · unfold bpe_main
    rw [h1]
    dsimp only
    rw [h2]
    exact hloop
  · intro h
    by_contra hn
    have := (hex (by simpa using hn)).2
    simp at this
    exact h this

theorem C4_budget_and_floor_witness :
    ∃ st, bpe_main [(["a", "b", "</w>"], 2)] 3 2 = some st ∧
      st.rules.length ≤ 3 ∧
      (st.note = false → st.rules.length = 3) ∧
      (st.rules.length ≠ 3 → st.note = true) :=
  C4_budget_and_floor [(["a", "b", "</w>"], 2)] 3 2 _ _ _ rfl rfl

/-- C9: over the whole run, the vocabulary list never gains or loses entries
(every entry keeps its index position) and every entry's frequency is
untouched; only the symbol sequences change. -/
theorem C9_vocab_frame (vocab : List (List String × Nat)) (symbols : Nat)
    (minFreq : Int) (st : BpeState)
    (h : bpe_main vocab symbols minFreq = some st) :
    st.vocab.length = vocab.length ∧
    ∀ j : Nat, (st.vocab[j]?).map Prod.snd = (vocab[j]?).map Prod.snd := by
  unfold bpe_main at h
  cases hg : get_pair_statistics vocab with
  | none =>
    rw [hg] at h
    exact Option.noConfusion h
  | some si =>
    obtain ⟨stats, indices⟩ := si
    rw [hg] at h
    dsimp only at h
    cases hm : maxValue stats with
    | none =>
      rw [hm] at h
      exact Option.noConfusion h
    | some m =>
      rw [hm] at h
      dsimp only at h
      have hne : stats ≠ [] := by
        intro hx
        subst hx
        simp [maxValue] at hm
      obtain ⟨st', hloop, _, _, hvl, hvg⟩ :=
        bpe_loop_spec minFreq symbols 0
          ⟨vocab, stats, stats, indices, ⟨m, 10⟩, [], false⟩ hne
      rw [hloop] at h
      obtain rfl : st' = st := Option.some.inj h
      exact ⟨hvl, hvg⟩

theorem C9_vocab_frame_witness :
    ∃ st, bpe_main [(["a", "b", "</w>"], 2)] 1 2 = some st ∧
      st.vocab.length = [(["a", "b", "</w>"], 2)].length ∧
      ∀ j : Nat, (st.vocab[j]?).map Prod.snd =
        ([(["a", "b", "</w>"], 2)][j]?).map Prod.snd := by
  obtain ⟨st, hst⟩ : ∃ st, bpe_main [(["a", "b", "</w>"], 2)] 1 2 = some st :=
    ⟨_, rfl⟩
  obtain ⟨h1, h2⟩ := C9_vocab_frame [(["a", "b", "</w>"], 2)] 1 2 st hst
  exact ⟨st, hst, h1, h2⟩

/-! ## Counterexample runs for the statistics-equivalence claims -/

/-- C1 counterexample: two copies of the word "aaa" in character mode.  After
the single merge of `("a","a")`, the incrementally maintained inverted index
holds a stale entry `-1` for the pair `("a","a")` at word 0, while the
brute-force recount of the rewritten vocabulary holds no entry (count `0`):
the incremental tables are not identical to the recount. -/
theorem C1_counterexample :
    (learnBpeChar (List.replicate 2 "aaa") 1 2).map
        (fun st => (alookupD 0 (alookupD [] st.indices ("a", "a")) 0, st.vocab))
      = some (-1, [(["aa", "a", "</w>"], 2)]) ∧
    (get_pair_statistics [(["aa", "a", "</w>"], 2)]).map
        (fun si => alookupD 0 (alookupD [] si.2 ("a", "a")) 0) = some 0 ∧
    (-1 : Int) ≠ 0 := by
  exact ⟨rfl, rfl, by decide⟩

/-- C2 counterexample: two copies of the word "aab" in character mode.  After
the single merge of `("a","a")` (including the end-of-iteration prune), the
Full Statistics table has no entry for the newly created pair `("aa","b")`
(lookup gives 0) although that pair's true global frequency over the current
vocabulary is 2: `big_stats` does not always equal the true frequency. -/
theorem C2_counterexample :
    (learnBpeChar (List.replicate 2 "aab") 1 2).map
        (fun st => (alookupD 0 st.bigStats ("aa", "b"),
                    trueFreq st.vocab ("aa", "b")))
      = some (0, 2) ∧ (0 : Int) ≠ 2 := by
  exact ⟨rfl, by decide⟩

/-- The corpus refuting pruning transparency (morph-as-char mode). -/
def c3corpus : List String :=
  List.replicate 50 "q==r" ++ List.replicate 8 "x==a==b==y" ++
  List.replicate 6 "a==b==c" ++ List.replicate 3 "x==ab"

/-- C3 counterexample: on `c3corpus` with budget 4 and floor 2, the pruned run
emits `(y,</w>)` as its fourth rule while the pruning-disabled run emits
`(x,ab)`: pruning changed the rule list.  (The pair `(x,ab)`, pruned away
with count 3, is re-created by the later merge of `(a,b)` whose merged symbol
collides with the pre-existing symbol `ab`; the pruned working table sees only
the delta 8 while the full run sees 11.) -/
theorem C3_counterexample :
    (learnBpeMorphAsChar c3corpus "==" 4 2).map BpeState.rules =
      some [("q", "r"), ("qr", "</w>"), ("a", "b"), ("y", "</w>")] ∧
    (bpe_main_unpruned
        (sortedByFreq (vocabMorphAsChar "==" (get_vocabulary c3corpus)))
        4 2).map BpeState.rules =
      some [("q", "r"), ("qr", "</w>"), ("a", "b"), ("x", "ab")] ∧
    ([("q", "r"), ("qr", "</w>"), ("a", "b"), ("y", "</w>")] : List SymPair) ≠
      [("q", "r"), ("qr", "</w>"), ("a", "b"), ("x", "ab")] := by
  exact ⟨rfl, rfl, by decide⟩

/-- The corpus refuting selection-frequency monotonicity (morph-as-char). -/
def c5corpus : List String :=
  List.replicate 3 "x==ab" ++ List.replicate 2 "x==a==b" ++
  List.replicate 2 "a==b"

/-- C5 counterexample: under the exact (recount-every-step) statistics model,
on `c5corpus` the first selected merge `(a,b)` has exact frequency 4 and the
second selected merge `(ab,</w>)` has exact frequency 7 > 4: the selected
frequencies are not non-increasing.  (The merged symbol `ab` collides with the
pre-existing symbol `ab`, so merging `(a,b)` *increases* the frequencies of
the pairs around the old `ab` occurrences.) -/
theorem C5_counterexample :
    exact_loop 2 2
        (sortedByFreq (vocabMorphAsChar "==" (get_vocabulary c5corpus))) =
      [(("a", "b"), 4), (("ab", "</w>"), 7)] ∧ ¬ ((7 : Int) ≤ 4) := by
  exact ⟨rfl, by decide⟩

/-! ## C3 amended: pruning preserves the selected maximum value -/

theorem argmaxEntry_mem (s : Stats) :
    ∀ e, argmaxEntry s = some e → e ∈ s := by
  induction s with
  | nil => intro e h; cases h
  | cons kv m ih =>
    obtain ⟨k, v⟩ := kv
    intro e h
    simp only [argmaxEntry] at h
    cases hm : argmaxEntry m with
    | none =>
      rw [hm] at h
      dsimp only at h
      obtain rfl := Option.some.inj h
      exact List.mem_cons_self _ _
    | some e2 =>
      obtain ⟨k2, v2⟩ := e2
      rw [hm] at h
      dsimp only at h
      by_cases hc : v2 > v
      · rw [if_pos hc] at h
        obtain rfl := Option.some.inj h
        exact List.mem_cons_of_mem _ (ih _ hm)
      · rw [if_neg hc] at h
        obtain rfl := Option.some.inj h
        exact List.mem_cons_self _ _

theorem argmaxEntry_le (s : Stats) :
    ∀ e, argmaxEntry s = some e → ∀ f ∈ s, Prod.snd f ≤ e.2 := by
  induction s with
  | nil => intro e h; cases h
  | cons kv m ih =>
    obtain ⟨k, v⟩ := kv
    intro e h f hf
    simp only [argmaxEntry] at h
    cases hm : argmaxEntry m with
    | none =>
      rw [hm] at h
      dsimp only at h
      obtain rfl := Option.some.inj h
      have hmnil : m = [] := by
        cases m with
        | nil => rfl
        | cons kv2 m2 =>
          obtain ⟨e3, he3⟩ := argmaxEntry_of_ne_nil (kv2 :: m2) (by simp)
          rw [he3] at hm
          cases hm
      subst hmnil
      rcases List.mem_cons.1 hf with rfl | hx
      · exact le_refl _
      · cases hx
    | some e2 =>
      obtain ⟨k2, v2⟩ := e2
      rw [hm] at h
      dsimp only at h
      by_cases hc : v2 > v
      · rw [if_pos hc] at h
        obtain rfl := Option.some.inj h
        rcases List.mem_cons.1 hf with rfl | hx
        · exact le_of_lt hc
        · exact ih _ hm f hx
      · rw [if_neg hc] at h
        obtain rfl := Option.some.inj h
        rcases List.mem_cons.1 hf with rfl | hx
        · exact le_refl _
        · exact le_trans (ih _ hm f hx) (not_lt.1 hc)

theorem alookupD_eq_default_of_not_mem {K V : Type*} [DecidableEq K] (d : V)
    (m : List (K × V)) (q : K) (h : q ∉ m.map Prod.fst) :
    alookupD d m q = d := by
  induction m with
  | nil => rfl
  | cons kv m ih =>
    simp only [List.map_cons, List.mem_cons] at h
    push_neg at h
    simp only [alookupD]
    rw [if_neg (Ne.symm h.1), ih h.2]

theorem alookupD_of_mem_nodup {K : Type*} [DecidableEq K]
    (m : List (K × Int)) (k : K) (x : Int)
    (hmem : (k, x) ∈ m) (hnd : (m.map Prod.fst).Nodup) :
    alookupD 0 m k = x := by
  induction m with
  | nil => cases hmem
  | cons kv m ih =>
    simp only [List.map_cons, List.nodup_cons] at hnd
    rcases List.mem_cons.1 hmem with rfl | hx
    · simp [alookupD]
    · have hk : kv.1 ≠ k := by
        intro h
        exact hnd.1 (h ▸ List.mem_map.2 ⟨(k, x), hx, rfl⟩)
      simp only [alookupD, if_neg hk]
      exact ih hx hnd.2

/-- C3 amended: pruning never changes the *value* of the selected maximum.
Whenever the working table agrees with the full table on every entry it
holds, every pair absent from it lies strictly below the threshold, and the
selected working maximum reaches the threshold (otherwise the loop repairs
from the full table first), the selected entry's frequency equals the true
maximum over the full, unpruned statistics.  The *identity* of the selected
pair -- and hence the emitted rule list -- can still differ, because ties are
broken by dict insertion order, which pruning and repair reorder
(`C3_counterexample`). -/
theorem C3_prune_preserves_max_value (s b : Stats) (t : Frac) (p : SymPair)
    (v : Int)
    (hd : 0 < t.den)
    (hagree : ∀ k x, (k, x) ∈ s → alookupD 0 b k = x)
    (habsent : ∀ k, k ∉ s.map Prod.fst → intLtFrac (alookupD 0 b k) t = true)
    (hmax : argmaxEntry s = some (p, v))
    (hth : intLtFrac v t = false) :
    alookupD 0 b p = v ∧ ∀ k : SymPair, alookupD 0 b k ≤ v := by
  have hpv : (p, v) ∈ s := argmaxEntry_mem s (p, v) hmax
  refine ⟨hagree p v hpv, fun k => ?_⟩
  by_cases hk : k ∈ s.map Prod.fst
  · obtain ⟨e, hmem, hfst⟩ := List.mem_map.1 hk
    obtain ⟨k2, x⟩ := e
    cases hfst
    rw [hagree k2 x hmem]
    exact argmaxEntry_le s (p, v) hmax (k2, x) hmem
  · have h1 : alookupD 0 b k * t.den < t.num := by
      have := habsent k hk
      simpa [intLtFrac] using this
    have h2 : t.num ≤ v * t.den := by
      have : ¬ (v * t.den < t.num) := by
        simpa [intLtFrac] using hth
      omega
    have h3 : alookupD 0 b k * t.den < v * t.den := lt_of_lt_of_le h1 h2
    exact le_of_lt (lt_of_mul_lt_mul_right h3 (le_of_lt hd))

theorem C3_prune_preserves_max_value_witness :
    alookupD 0 [((("a" : String), ("b" : String)), (5 : Int)),
                ((("c" : String), ("d" : String)), 1)] ("a", "b") = 5 ∧
    alookupD 0 [((("a" : String), ("b" : String)), (5 : Int)),
                ((("c" : String), ("d" : String)), 1)] ("c", "d") ≤ 5 := by
  have h := C3_prune_preserves_max_value
    [(("a", "b"), 5)] [(("a", "b"), 5), (("c", "d"), 1)] ⟨2, 1⟩ ("a", "b") 5
    (by decide)
    (by
      intro k x hmem
      simp only [List.mem_cons, List.not_mem_nil, or_false] at hmem
      obtain ⟨rfl, rfl⟩ := Prod.mk.injEq .. ▸ hmem
      rfl)
    (by
      intro k hk
      simp only [List.map_cons, List.map_nil, List.mem_cons,
        List.not_mem_nil, or_false] at hk
      have h1 : ¬ ((("a", "b") : SymPair) = k) := fun h => hk h.symm
      simp only [alookupD, if_neg h1]
      by_cases h2 : ((("c", "d") : SymPair) = k)
      · rw [if_pos h2]; decide
      · rw [if_neg h2]; decide)
    rfl
    (by decide)
  exact ⟨h.1, h.2 ("c", "d")⟩

/-! ## C6: replacement semantics -/

/-- Splitting every occurrence of the merged symbol back into the original
pair recovers the original word, provided the merged symbol is fresh: nothing
is missed, nothing is merged twice. -/
theorem unmerge_roundtrip (a b : String) (w : List String)
    (h : (a ++ b) ∉ w) :
    (mergeWordTokens a b w).flatMap
      (fun t => if t = a ++ b then [a, b] else [t]) = w := by
  induction w using mergeWordTokens.induct a b with
  | case1 x y rest hm ih =>
    obtain ⟨rfl, rfl⟩ := hm
    rw [mergeWordTokens, if_pos ⟨rfl, rfl⟩]
    simp only [List.flatMap_cons, if_pos rfl]
    rw [ih (fun hx => h (List.mem_cons_of_mem _ (List.mem_cons_of_mem _ hx)))]
    rfl
  | case2 x y rest hm ih =>
    rw [mergeWordTokens, if_neg hm]
    simp only [List.flatMap_cons]
    have hx : x ≠ a ++ b := fun hx => h (hx ▸ List.mem_cons_self _ _)
    rw [if_neg hx, ih (fun hy => h (List.mem_cons_of_mem _ hy))]
    rfl
  | case3 w hw =>
    cases w with
    | nil => rfl
    | cons x rest =>
      cases rest with
      | nil =>
        have hx : x ≠ a ++ b := fun hx => h (hx ▸ List.mem_cons_self _ _)
        simp [mergeWordTokens, hx]
      | cons y rest2 => exact absurd rfl (fun hx => hw x y rest2 hx)

theorem replaceStep_fst_get_ne (pair : SymPair)
    (acc : List (List String × Nat) × List (Nat × List String × List String × Nat))
    (it : Nat × Int) (j : Nat) (hj : it.1 ≠ j) :
    (replaceStep pair acc it).1[j]? = acc.1[j]? := by
  unfold replaceStep
  by_cases h1 : it.2 < 1
  · rw [if_pos h1]
  · rw [if_neg h1]
    cases hg : acc.1[it.1]? with
    | none => rfl
    | some e =>
      obtain ⟨word, freq⟩ := e
      simp only
      rw [List.getElem?_set_ne hj]

/-- The keyed behaviour of the `replace_pair` fold: an index with
non-positive count is untouched, an index with positive count is rewritten
(once) to the merged-and-collapsed word with its frequency kept. -/
theorem replace_fold_keyed (pair : SymPair) :
    ∀ (items : List (Nat × Int))
      (acc : List (List String × Nat) × List (Nat × List String × List String × Nat))
      (j : Nat), (items.map Prod.fst).Nodup →
    (alookupD 0 items j < 1 →
      (items.foldl (replaceStep pair) acc).1[j]? = acc.1[j]?) ∧
    (1 ≤ alookupD 0 items j → ∀ w f, acc.1[j]? = some (w, f) →
      (items.foldl (replaceStep pair) acc).1[j]? =
        some (collapseWord (mergeWordTokens pair.1 pair.2 w), f)) := by
  intro items
  induction items with
  | nil =>
    intro acc j _
    exact ⟨fun _ => rfl, fun h1 => absurd h1 (by simp [alookupD])⟩
  | cons it items ih =>
    intro acc j hnd
    simp only [List.map_cons, List.nodup_cons] at hnd
    simp only [List.foldl_cons]
    by_cases hk : it.1 = j
    · have hnot : j ∉ items.map Prod.fst := by
        rw [← hk]; exact hnd.1
      have htail : alookupD 0 items j = 0 :=
        alookupD_eq_default_of_not_mem 0 items j hnot
      have hlook : alookupD 0 (it :: items) j = it.2 := by
        obtain ⟨k, c⟩ := it
        simp only [alookupD]
        rw [if_pos hk]
      constructor
      · intro hlt
        rw [hlook] at hlt
        have hskip : replaceStep pair acc it = acc := by
          unfold replaceStep
          rw [if_pos hlt]
        rw [hskip]
        exact (ih acc j hnd.2).1 (by omega)
      · intro hge w f hacc
        rw [hlook] at hge
        have hstep : (replaceStep pair acc it).1[j]? =
            some (collapseWord (mergeWordTokens pair.1 pair.2 w), f) := by
          unfold replaceStep
          rw [if_neg (by omega), hk, hacc]
          simp only
          obtain ⟨hlt2, _⟩ := List.getElem?_eq_some_iff.1 hacc
          rw [List.getElem?_set_self hlt2]
        rcases hres : (replaceStep pair acc it).1[j]? with _ | e
        · rw [hres] at hstep; cases hstep
        · rw [hres] at hstep
          obtain rfl := Option.some.inj hstep
          rw [(ih (replaceStep pair acc it) j hnd.2).1 (by omega), hres]
    · have hlook : alookupD 0 (it :: items) j = alookupD 0 items j := by
        obtain ⟨k, c⟩ := it
        simp only [alookupD]
        rw [if_neg hk]
      have hstep := replaceStep_fst_get_ne pair acc it j hk
      constructor
      · intro hlt
        rw [hlook] at hlt
        rw [(ih (replaceStep pair acc it) j hnd.2).1 hlt, hstep]
      · intro hge w f hacc
        rw [hlook] at hge
        exact (ih (replaceStep pair acc it) j hnd.2).2 hge w f
          (by rw [hstep, hacc])

/-- C6: `replace_pair` rewrites exactly the word entries whose inverted-index
count for the pair is positive (entries with non-positive or absent counts are
untouched), rewriting each to the left-to-right non-overlapping replacement of
`(L, R)` by `L ++ R` (followed by the boundary-collapse step); the replacement
is exhaustive and never merges a symbol twice (splitting the fresh merged
symbol back recovers the original word), and in an overlapping run `L L L` of
`(L, L)` only the first occurrence is merged. -/
theorem C6_replace_pair_semantics :
    (∀ (pair : SymPair) (vocab : List (List String × Nat)) (indices : Indices),
      ((alookupD [] indices pair).map Prod.fst).Nodup →
      (∀ j : Nat, alookupD 0 (alookupD [] indices pair) j < 1 →
        (replace_pair pair vocab indices).1[j]? = vocab[j]?) ∧
      (∀ (j : Nat) (w : List String) (f : Nat),
        1 ≤ alookupD 0 (alookupD [] indices pair) j →
        vocab[j]? = some (w, f) →
        (replace_pair pair vocab indices).1[j]? =
          some (collapseWord (mergeWordTokens pair.1 pair.2 w), f))) ∧
    (∀ (a b : String) (w : List String), (a ++ b) ∉ w →
      (mergeWordTokens a b w).flatMap
        (fun t => if t = a ++ b then [a, b] else [t]) = w) ∧
    (∀ s : String, mergeWordTokens s s [s, s, s] = [s ++ s, s]) := by
  refine ⟨?_, unmerge_roundtrip, ?_⟩
  · intro pair vocab indices hnd
    constructor
    · intro j hlt
      exact (replace_fold_keyed pair (alookupD [] indices pair)
        (vocab, []) j hnd).1 hlt
    · intro j w f hge hv
      exact (replace_fold_keyed pair (alookupD [] indices pair)
        (vocab, []) j hnd).2 hge w f hv
  · intro s
    simp [mergeWordTokens]

theorem C6_replace_pair_semantics_witness :
    (replace_pair ("a", "b") [(["a", "b", "</w>"], 1)]
        [(("a", "b"), [(0, 1)])]).1[0]? =
      some (collapseWord (mergeWordTokens "a" "b" ["a", "b", "</w>"]), 1) :=
  (C6_replace_pair_semantics.1 ("a", "b") [(["a", "b", "</w>"], 1)]
    [(("a", "b"), [(0, 1)])] (by decide)).2 0 ["a", "b", "</w>"] 1
    (by decide) rfl

theorem C7_collapse_strips_all_witness :
    collapseWord ["a", "==", "b"] =
      (["a", "==", "b"].filter (fun t => t ≠ "==")) ∧
    "==" ∉ collapseWord ["a", "==", "b"] :=
  C7_collapse_strips_all ["a", "==", "b"] (by decide)

/-! ## Bridging the built statistics tables to the true frequencies -/

theorem aset_keys_mem {K V : Type*} [DecidableEq K] (m : List (K × V))
    (q r : K) (v : V) (h : r ∈ (aset m q v).map Prod.fst) :
    r ∈ m.map Prod.fst ∨ r = q := by
  induction m with
  | nil =>
    simp [aset] at h
    exact Or.inr h
  | cons kv m ih =>
    by_cases hk : kv.1 = q
    · rw [show aset (kv :: m) q v = (q, v) :: m from by
        simp [aset, hk]] at h
      simp only [List.map_cons, List.mem_cons] at h ⊢
      rcases h with rfl | h
      · exact Or.inr rfl
      · exact Or.inl (Or.inr h)
    · rw [show aset (kv :: m) q v = kv :: aset m q v from by
        simp [aset, hk]] at h
      simp only [List.map_cons, List.mem_cons] at h ⊢
      rcases h with rfl | h
      · exact Or.inl (Or.inl rfl)
      · rcases ih h with h2 | h2
        · exact Or.inl (Or.inr h2)
        · exact Or.inr h2

theorem aset_keys_nodup {K V : Type*} [DecidableEq K] (m : List (K × V))
    (q : K) (v : V) (h : (m.map Prod.fst).Nodup) :
    ((aset m q v).map Prod.fst).Nodup := by
  induction m with
  | nil => simp [aset]
  | cons kv m ih =>
    simp only [List.map_cons, List.nodup_cons] at h
    by_cases hk : kv.1 = q
    · rw [show aset (kv :: m) q v = (q, v) :: m from by simp [aset, hk]]
      simp only [List.map_cons, List.nodup_cons]
      exact ⟨hk ▸ h.1, h.2⟩
    · rw [show aset (kv :: m) q v = kv :: aset m q v from by simp [aset, hk]]
      simp only [List.map_cons, List.nodup_cons]
      refine ⟨fun hmem => ?_, ih h.2⟩
      rcases aset_keys_mem m q kv.1 v hmem with h2 | h2
      · exact h.1 h2
      · exact hk h2

theorem gps_fold_stats (i freq : Nat) (ps : List SymPair) :
    ∀ (acc : Stats × Indices) (q : SymPair),
    alookupD 0 (ps.foldl (gpsStep i freq) acc).1 q =
      alookupD 0 acc.1 q + (freq : Int) * (ps.count q : Int) := by
  induction ps with
  | nil => intro acc q; simp
  | cons p ps ih =>
    intro acc q
    simp only [List.foldl_cons]
    rw [ih]
    show alookupD 0 (aincr acc.1 p (freq : Int)) q + _ = _
    rw [alookupD_aincr]
    rw [List.count_cons]
    by_cases hp : p = q
    · subst hp
      simp only [if_pos rfl, beq_self_eq_true, if_true]
      push_cast
      ring
    · have hb : (p == q) = false := beq_eq_false_iff_ne.2 hp
      simp only [if_neg hp, hb, Bool.false_eq_true, if_false]
      push_cast
      ring

theorem gps_fold_idx (i freq : Nat) (ps : List SymPair) :
    ∀ (acc : Stats × Indices) (q : SymPair) (j : Nat),
    alookupD 0 (alookupD [] (ps.foldl (gpsStep i freq) acc).2 q) j =
      alookupD 0 (alookupD [] acc.2 q) j +
        (if j = i then (ps.count q : Int) else 0) := by
  induction ps with
  | nil => intro acc q j; simp
  | cons p ps ih =>
    intro acc q j
    simp only [List.foldl_cons]
    rw [ih]
    show alookupD 0 (alookupD []
      (aset acc.2 p (aincr (alookupD [] acc.2 p) i 1)) q) j + _ = _
    by_cases hp : p = q
    · subst hp
      rw [alookupD_aset_self]
      show alookupD 0 (aincr (alookupD [] acc.2 p) i 1) j + _ = _
      rw [alookupD_aincr, List.count_cons]
      by_cases hj : j = i
      · subst hj
        simp only [if_pos rfl, beq_self_eq_true, if_true]
        push_cast
        ring
      · simp only [if_neg hj, if_neg (fun h : i = j => hj h.symm)]
        ring_nf
    · rw [alookupD_aset_ne _ _ _ _ _ hp]
      rw [List.count_cons]
      have hb : (p == q) = false := beq_eq_false_iff_ne.2 hp
      simp only [hb, Bool.false_eq_true, if_false]
      push_cast
      ring
  
theorem gps_fold_keys_nodup (i freq : Nat) (ps : List SymPair) :
    ∀ (acc : Stats × Indices), ((acc.1.map Prod.fst).Nodup) →
    (((ps.foldl (gpsStep i freq) acc).1.map Prod.fst).Nodup) := by
  induction ps with
  | nil => intro acc h; exact h
  | cons p ps ih =>
    intro acc h
    simp only [List.foldl_cons]
    exact ih _ (aset_keys_nodup acc.1 p _ h)

theorem trueFreq_nil (q : SymPair) : trueFreq [] q = 0 := rfl

theorem trueFreq_cons (e : List String × Nat)
    (rest : List (List String × Nat)) (q : SymPair) :
    trueFreq (e :: rest) q =
      (e.2 : Int) * ((wordPairs e.1).count q : Int) + trueFreq rest q := by
  simp [trueFreq]

theorem gps_go_stats (entries : List (List String × Nat)) :
    ∀ (i : Nat) (acc : Stats × Indices) (s : Stats) (ix : Indices),
    get_pair_statistics.go i entries acc = some (s, ix) →
    ∀ q, alookupD 0 s q = alookupD 0 acc.1 q + trueFreq entries q := by
  induction entries with
  | nil =>
    intro i acc s ix h q
    obtain ⟨rfl, rfl⟩ : acc.1 = s ∧ acc.2 = ix := by
      have := Option.some.inj h
      constructor <;> simp [this]
    simp [trueFreq]
  | cons e rest ih =>
    intro i acc s ix h q
    obtain ⟨w, f⟩ := e
    rw [get_pair_statistics.go] at h
    by_cases hok : wordOk w
    · rw [if_pos hok] at h
      rw [ih (i + 1) _ s ix h q, gps_fold_stats, trueFreq_cons]
      ring
    · rw [if_neg hok] at h
      cases h

theorem gps_go_keys_nodup (entries : List (List String × Nat)) :
    ∀ (i : Nat) (acc : Stats × Indices) (s : Stats) (ix : Indices),
    get_pair_statistics.go i entries acc = some (s, ix) →
    (acc.1.map Prod.fst).Nodup → (s.map Prod.fst).Nodup := by
  induction entries with
  | nil =>
    intro i acc s ix h hn
    obtain rfl : acc.1 = s := by
      have := Option.some.inj h
      simp [this]
    exact hn
  | cons e rest ih =>
    intro i acc s ix h hn
    obtain ⟨w, f⟩ := e
    rw [get_pair_statistics.go] at h
    by_cases hok : wordOk w
    · rw [if_pos hok] at h
      exact ih (i + 1) _ s ix h (gps_fold_keys_nodup i f (wordPairs w) acc hn)
    · rw [if_neg hok] at h
      cases h

/-- The statistics table built by `get_pair_statistics` holds, for every
pair, exactly the true global frequency over the vocabulary. -/
theorem gps_stats_eq_trueFreq (vocab : List (List String × Nat))
    (s : Stats) (ix : Indices)
    (h : get_pair_statistics vocab = some (s, ix)) :
    ∀ q, alookupD 0 s q = trueFreq vocab q := by
  intro q
  have := gps_go_stats vocab 0 ([], []) s ix h q
  simpa [alookupD] using this

theorem gps_stats_keys_nodup (vocab : List (List String × Nat))
    (s : Stats) (ix : Indices)
    (h : get_pair_statistics vocab = some (s, ix)) :
    (s.map Prod.fst).Nodup :=
  gps_go_keys_nodup vocab 0 ([], []) s ix h (by simp)

theorem gps_go_idx (entries : List (List String × Nat)) :
    ∀ (i : Nat) (acc : Stats × Indices) (s : Stats) (ix : Indices),
    get_pair_statistics.go i entries acc = some (s, ix) →
    ∀ (q : SymPair) (j : Nat),
    alookupD 0 (alookupD [] ix q) j =
      alookupD 0 (alookupD [] acc.2 q) j +
        (if i ≤ j then
          (match entries[j - i]? with
           | some e => ((wordPairs e.1).count q : Int)
           | none => 0)
         else 0) := by
  induction entries with
  | nil =>
    intro i acc s ix h q j
    obtain rfl : acc.2 = ix := by
      have := Option.some.inj h
      simp [this]
    simp
  | cons e rest ih =>
    intro i acc s ix h q j
    obtain ⟨w, f⟩ := e
    rw [get_pair_statistics.go] at h
    by_cases hok : wordOk w
    · rw [if_pos hok] at h
      rw [ih (i + 1) _ s ix h q j, gps_fold_idx]
      by_cases hij : j = i
      · subst hij
        rw [if_pos rfl, if_neg (show ¬ j + 1 ≤ j by omega),
          if_pos (le_refl j)]
        simp only [Nat.sub_self, List.getElem?_cons_zero]
        ring
      · rw [if_neg hij]
        by_cases hle : i ≤ j
        · have h1 : i + 1 ≤ j := by omega
          rw [if_pos h1, if_pos hle]
          have h2 : j - i = (j - (i + 1)) + 1 := by omega
          rw [h2, List.getElem?_cons_succ]
          ring
        · rw [if_neg (show ¬ i + 1 ≤ j by omega), if_neg hle]
          ring
    · rw [if_neg hok] at h
      cases h

/-- The inverted index built by `get_pair_statistics` holds, for every pair
and word index, exactly the occurrence count of the pair in that word. -/
theorem gps_idx_eq_counts (vocab : List (List String × Nat))
    (s : Stats) (ix : Indices)
    (h : get_pair_statistics vocab = some (s, ix)) :
    ∀ (q : SymPair) (j : Nat),
    alookupD 0 (alookupD [] ix q) j =
      (match vocab[j]? with
       | some e => ((wordPairs e.1).count q : Int)
       | none => 0) := by
  intro q j
  have := gps_go_idx vocab 0 ([], []) s ix h q j
  simpa [alookupD] using this

/-! ## Counting lemmas about the merge operation (delimiter-free words) -/

theorem split_tuple_no_delim (w : List String) (h : "==" ∉ w) :
    split_tuple "==" w = [w] := by
  induction w with
  | nil => rfl
  | cons x xs ih =>
    simp only [List.mem_cons] at h
    push_neg at h
    rw [split_tuple, if_neg (fun hx => h.1 hx.symm), ih h.2]

theorem wordPairs_no_delim (w : List String) (h : "==" ∉ w) :
    wordPairs w = spanPairs w := by
  rw [wordPairs, split_tuple_no_delim w h]
  simp

theorem mem_mergeWordTokens (a b : String) (w : List String) (t : String)
    (h : t ∈ mergeWordTokens a b w) : t ∈ w ∨ t = a ++ b := by
  induction w using mergeWordTokens.induct a b with
  | case1 x y rest hm ih =>
    obtain ⟨rfl, rfl⟩ := hm
    rw [mergeWordTokens, if_pos ⟨rfl, rfl⟩] at h
    rcases List.mem_cons.1 h with rfl | h2
    · exact Or.inr rfl
    · rcases ih h2 with h3 | h3
      · exact Or.inl (List.mem_cons_of_mem _ (List.mem_cons_of_mem _ h3))
      · exact Or.inr h3
  | case2 x y rest hm ih =>
    rw [mergeWordTokens, if_neg hm] at h
    rcases List.mem_cons.1 h with rfl | h2
    · exact Or.inl (List.mem_cons_self _ _)
    · rcases ih h2 with h3 | h3
      · exact Or.inl (List.mem_cons_of_mem _ h3)
      · exact Or.inr h3
  | case3 w hw =>
    cases w with
    | nil => cases h
    | cons x rest =>
      cases rest with
      | nil => exact Or.inl (by simpa [mergeWordTokens] using h)
      | cons y rest2 => exact absurd rfl (fun hx => hw x y rest2 hx)

theorem collapseWord_no_delim (u : List String) (h : "==" ∉ u) :
    collapseWord u = u := by
  unfold collapseWord
  have hc : u.count "==" = 0 := by
    rw [List.count_eq_zero]
    exact h
  rw [hc]
  by_cases hl : (u.length : Int) - 2 * ((0 : Nat) : Int) - 1 = 0
  · rw [if_pos hl]
    apply List.filter_eq_self.2
    intro t ht
    simp only [decide_eq_true_eq]
    exact fun hx => h (hx ▸ ht)
  · rw [if_neg hl]

/-- The head of a merged nonempty word is either the original head or the
merged symbol. -/
theorem mergeWordTokens_cons_shape (a b y : String) (v : List String) :
    (∃ t, mergeWordTokens a b (y :: v) = (a ++ b) :: t) ∨
    (∃ t, mergeWordTokens a b (y :: v) = y :: t) := by
  cases v with
  | nil => exact Or.inr ⟨[], rfl⟩
  | cons z v2 =>
    by_cases hm : y = a ∧ z = b
    · exact Or.inl ⟨mergeWordTokens a b v2, by rw [mergeWordTokens, if_pos hm]⟩
    · exact Or.inr ⟨mergeWordTokens a b (z :: v2),
        by rw [mergeWordTokens, if_neg hm]⟩

theorem spanPairs_cons_le (t : String) (u : List String) (p : SymPair) :
    (spanPairs u).count p ≤ (spanPairs (t :: u)).count p := by
  cases u with
  | nil => simp [spanPairs]
  | cons y v =>
    rw [show spanPairs (t :: y :: v) = (t, y) :: spanPairs (y :: v) from rfl]
    rw [List.count_cons]
    omega

theorem spanPairs_count_le_left (u : List String) (x y : String) :
    (spanPairs u).count (x, y) ≤ u.count x := by
  induction u with
  | nil => simp [spanPairs]
  | cons t v ih =>
    cases v with
    | nil => simp [show spanPairs [t] = [] from rfl]
    | cons t2 v2 =>
      rw [show spanPairs (t :: t2 :: v2) = (t, t2) :: spanPairs (t2 :: v2)
        from rfl]
      rw [List.count_cons, List.count_cons]
      by_cases hp : ((t, t2) : SymPair) = (x, y)
      · obtain ⟨rfl, rfl⟩ : t = x ∧ t2 = y := Prod.mk.injEq .. ▸ hp
        simp only [beq_self_eq_true, if_true]
        omega
      · have hb : (((t, t2) : SymPair) == (x, y)) = false :=
          beq_eq_false_iff_ne.2 hp
        simp only [hb, Bool.false_eq_true, if_false]
        omega

theorem spanPairs_count_le_right (u : List String) (x y : String) :
    (spanPairs u).count (x, y) ≤ u.tail.count y := by
  induction u with
  | nil => simp [spanPairs]
  | cons t v ih =>
    cases v with
    | nil => simp [show spanPairs [t] = [] from rfl]
    | cons t2 v2 =>
      rw [show spanPairs (t :: t2 :: v2) = (t, t2) :: spanPairs (t2 :: v2)
        from rfl]
      rw [List.count_cons]
      show _ ≤ (t2 :: v2).count y
      rw [List.count_cons]
      by_cases hp : ((t, t2) : SymPair) = (x, y)
      · obtain ⟨rfl, rfl⟩ : t = x ∧ t2 = y := Prod.mk.injEq .. ▸ hp
        simp only [beq_self_eq_true, if_true]
        have := ih
        simp only [List.tail_cons] at this
        omega
      · have hb : (((t, t2) : SymPair) == (x, y)) = false :=
          beq_eq_false_iff_ne.2 hp
        simp only [hb, Bool.false_eq_true, if_false]
        have := ih
        simp only [List.tail_cons] at this
        omega

theorem spanPairs_count_le_right' (u : List String) (x y : String) :
    (spanPairs u).count (x, y) ≤ u.count y := by
  refine le_trans (spanPairs_count_le_right u x y) ?_
  cases u with
  | nil => simp
  | cons t v =>
    rw [List.tail_cons, List.count_cons]
    omega

/-- Every occurrence of the merged symbol in the merged word corresponds to a
distinct occurrence of the pair in the original word (freshness required). -/
theorem merge_count_newSym_le (a b : String) (w : List String)
    (h : (a ++ b) ∉ w) :
    (mergeWordTokens a b w).count (a ++ b) ≤ (spanPairs w).count (a, b) := by
  induction w using mergeWordTokens.induct a b with
  | case1 x y rest hm ih =>
    obtain ⟨rfl, rfl⟩ := hm
    rw [mergeWordTokens, if_pos ⟨rfl, rfl⟩]
    rw [List.count_cons, show spanPairs (x :: y :: rest) =
      (x, y) :: spanPairs (y :: rest) from rfl, List.count_cons]
    simp only [beq_self_eq_true, if_true]
    have h2 : (x ++ y) ∉ rest := fun hx =>
      h (List.mem_cons_of_mem _ (List.mem_cons_of_mem _ hx))
    have := ih h2
    have h3 := spanPairs_cons_le y rest (x, y)
    omega
  | case2 x y rest hm ih =>
    rw [mergeWordTokens, if_neg hm]
    rw [List.count_cons]
    have hx : (x == a ++ b) = false := beq_eq_false_iff_ne.2
      (fun hx => h (hx ▸ List.mem_cons_self _ _))
    rw [hx]
    simp only [Bool.false_eq_true, if_false]
    have h2 : (a ++ b) ∉ y :: rest := fun hx => h (List.mem_cons_of_mem _ hx)
    exact le_trans (ih h2) (spanPairs_cons_le x (y :: rest) (a, b))
  | case3 w hw =>
    cases w with
    | nil => simp [mergeWordTokens, spanPairs]
    | cons x rest =>
      cases rest with
      | nil =>
        have hx : (x == a ++ b) = false := beq_eq_false_iff_ne.2
          (fun hx => h (hx ▸ List.mem_cons_self _ _))
        rw [show mergeWordTokens a b [x] = [x] from rfl,
          show spanPairs [x] = ([] : List SymPair) from rfl]
        simp [List.count_cons, hx]
      | cons y rest2 => exact absurd rfl (fun hx => hw x y rest2 hx)

/-- Merging cannot increase the count of any pair neither of whose components
is the merged symbol (freshness required). -/
theorem merge_count_other_le (a b : String) (w : List String) (q : SymPair)
    (hf : (a ++ b) ∉ w) (h1 : q.1 ≠ a ++ b) (h2 : q.2 ≠ a ++ b) :
    (spanPairs (mergeWordTokens a b w)).count q ≤ (spanPairs w).count q := by
  induction w using mergeWordTokens.induct a b with
  | case1 x y rest hm ih =>
    obtain ⟨rfl, rfl⟩ := hm
    rw [mergeWordTokens, if_pos ⟨rfl, rfl⟩]
    have hf2 : (x ++ y) ∉ rest := fun hx =>
      hf (List.mem_cons_of_mem _ (List.mem_cons_of_mem _ hx))
    have hcount : (spanPairs ((x ++ y) :: mergeWordTokens x y rest)).count q =
        (spanPairs (mergeWordTokens x y rest)).count q := by
      cases hsh : mergeWordTokens x y rest with
      | nil => rfl
      | cons h0 t0 =>
        rw [show spanPairs ((x ++ y) :: h0 :: t0) =
          (x ++ y, h0) :: spanPairs (h0 :: t0) from rfl, List.count_cons]
        have : ((x ++ y, h0) == q) = false := beq_eq_false_iff_ne.2
          (fun hx => h1 (by rw [← hx]))
        rw [this]
        simp
    rw [hcount]
    refine le_trans (ih hf2) ?_
    exact le_trans (spanPairs_cons_le y rest q)
      (spanPairs_cons_le x (y :: rest) q)
  | case2 x y rest hm ih =>
    rw [mergeWordTokens, if_neg hm]
    have hf2 : (a ++ b) ∉ y :: rest := fun hx =>
      hf (List.mem_cons_of_mem _ hx)
    rcases mergeWordTokens_cons_shape a b y rest with ⟨t0, ht⟩ | ⟨t0, ht⟩
    · rw [ht]
      rw [show spanPairs (x :: (a ++ b) :: t0) =
        (x, a ++ b) :: spanPairs ((a ++ b) :: t0) from rfl, List.count_cons]
      have hq : ((x, a ++ b) == q) = false := beq_eq_false_iff_ne.2
        (fun hx => h2 (by rw [← hx]))
      rw [hq]
      simp only [Bool.false_eq_true, if_false, Nat.add_zero]
      rw [← ht]
      exact le_trans (ih hf2) (spanPairs_cons_le x (y :: rest) q)
    · rw [ht]
      rw [show spanPairs (x :: y :: t0) = (x, y) :: spanPairs (y :: t0)
        from rfl, List.count_cons]
      rw [show spanPairs (x :: y :: rest) = (x, y) :: spanPairs (y :: rest)
        from rfl, List.count_cons]
      have := ih hf2
      rw [ht] at this
      omega
  | case3 w hw =>
    cases w with
    | nil => simp [mergeWordTokens]
    | cons x rest =>
      cases rest with
      | nil => simp [mergeWordTokens]
      | cons y rest2 => exact absurd rfl (fun hx => hw x y rest2 hx)

/-! ## C5 amended: monotone selection frequencies under fresh merged symbols -/

theorem alookupD_mem_of_mem_keys {K : Type*} [DecidableEq K]
    (m : List (K × Int)) (q : K) (h : q ∈ m.map Prod.fst) :
    (q, alookupD 0 m q) ∈ m := by
  induction m with
  | nil => cases h
  | cons kv m ih =>
    obtain ⟨k, v⟩ := kv
    simp only [alookupD]
    by_cases hk : k = q
    · rw [if_pos hk]
      subst hk
      exact List.mem_cons_self _ _
    · rw [if_neg hk]
      simp only [List.map_cons, List.mem_cons] at h
      rcases h with h | h
      · exact absurd h.symm hk
      · exact List.mem_cons_of_mem _ (ih h)

theorem trueFreq_nonneg (vocab : List (List String × Nat)) (q : SymPair) :
    0 ≤ trueFreq vocab q := by
  unfold trueFreq
  apply List.sum_nonneg
  intro x hx
  obtain ⟨e, _, rfl⟩ := List.mem_map.1 hx
  positivity

/-- Per-entry bound: rewriting one word for the merge of `(a, b)` gives every
pair involving the merged symbol at most the old count of `(a, b)`, and does
not increase any other pair. -/
theorem rewrite_entry_count_bound (a b : String) (w : List String)
    (q : SymPair) (hnd : "==" ∉ w) (hf : (a ++ b) ∉ w)
    (hab : a ++ b ≠ "==") :
    (wordPairs (if (wordPairs w).count (a, b) > 0 then
        collapseWord (mergeWordTokens a b w) else w)).count q ≤
      (if q.1 = a ++ b ∨ q.2 = a ++ b
       then (wordPairs w).count (a, b)
       else (wordPairs w).count q) := by
  have hw : wordPairs w = spanPairs w := wordPairs_no_delim w hnd
  by_cases hocc : (wordPairs w).count (a, b) > 0
  · rw [if_pos hocc]
    have hmnd : "==" ∉ mergeWordTokens a b w := by
      intro hx
      rcases mem_mergeWordTokens a b w "==" hx with h2 | h2
      · exact hnd h2
      · exact hab h2.symm
    rw [collapseWord_no_delim _ hmnd, wordPairs_no_delim _ hmnd, hw]
    by_cases hq : q.1 = a ++ b ∨ q.2 = a ++ b
    · rw [if_pos hq]
      obtain ⟨x, y⟩ := q
      rcases hq with hq1 | hq2
      · simp only at hq1
        subst hq1
        refine le_trans (spanPairs_count_le_left _ _ _) ?_
        exact merge_count_newSym_le a b w hf
      · simp only at hq2
        subst hq2
        refine le_trans (spanPairs_count_le_right' _ _ _) ?_
        exact merge_count_newSym_le a b w hf
    · rw [if_neg hq]
      push_neg at hq
      exact merge_count_other_le a b w q hf hq.1 hq.2
  · rw [if_neg hocc]
    by_cases hq : q.1 = a ++ b ∨ q.2 = a ++ b
    · rw [if_pos hq, hw]
      have hz : w.count (a ++ b) = 0 := List.count_eq_zero.2 hf
      obtain ⟨x, y⟩ := q
      rcases hq with hq1 | hq2
      · simp only at hq1
        subst hq1
        have := spanPairs_count_le_left w (a ++ b) y
        omega
      · simp only at hq2
        subst hq2
        have := spanPairs_count_le_right' w x (a ++ b)
        omega
    · rw [if_neg hq]

theorem exactRewrite_entry (a b : String) (e : List String × Nat) :
    (if (wordPairs e.1).count (a, b) > 0 then
       (collapseWord (mergeWordTokens a b e.1), e.2) else e) =
    (if (wordPairs e.1).count (a, b) > 0 then
        collapseWord (mergeWordTokens a b e.1) else e.1, e.2) := by
  split_ifs <;> simp

/-- Vocabulary-level bound: after the exact-model rewrite for the maximal pair
`(a, b)`, every pair's true frequency is at most the old frequency of
`(a, b)`. -/
theorem exactRewrite_trueFreq_le (a b : String)
    (vocab : List (List String × Nat)) (q : SymPair)
    (hnd : ∀ e ∈ vocab, "==" ∉ e.1)
    (hf : ∀ e ∈ vocab, (a ++ b) ∉ e.1)
    (hab : a ++ b ≠ "==")
    (hmax : ∀ q', trueFreq vocab q' ≤ trueFreq vocab (a, b)) :
    trueFreq (exactRewrite (a, b) vocab) q ≤ trueFreq vocab (a, b) := by
  have key : trueFreq (exactRewrite (a, b) vocab) q ≤
      (vocab.map (fun e => (e.2 : Int) *
        (((if q.1 = a ++ b ∨ q.2 = a ++ b
           then (wordPairs e.1).count (a, b)
           else (wordPairs e.1).count q) : Nat) : Int))).sum := by
    unfold trueFreq exactRewrite
    rw [List.map_map]
    apply List.sum_le_sum
    intro e he
    simp only [Function.comp_apply]
    rw [exactRewrite_entry a b e]
    simp only
    have hb := rewrite_entry_count_bound a b e.1 q (hnd e he) (hf e he) hab
    exact mul_le_mul_of_nonneg_left (Int.ofNat_le.2 hb) (by positivity)
  by_cases hq : q.1 = a ++ b ∨ q.2 = a ++ b
  · refine le_trans key ?_
    simp only [if_pos hq]
    exact le_of_eq rfl
  · refine le_trans key ?_
    simp only [if_neg hq]
    exact hmax q

/-- The freshness side condition along an exact-model run: at every step the
selected pair's merged symbol does not yet occur in any word and does not
equal the boundary delimiter.  (The counterexample run violates exactly
this.) -/
def exactFreshRun (minFreq : Int) : Nat → List (List String × Nat) → Bool
  | 0, _ => true
  | n + 1, vocab =>
    match get_pair_statistics vocab with
    | none => true
    | some (stats, _) =>
      match argmaxEntry stats with
      | none => true
      | some (mf, v) =>
        if v < minFreq then true
        else
          (vocab.all fun e => !(e.1.contains (mf.1 ++ mf.2))) &&
          (mf.1 ++ mf.2 != "==") &&
          exactFreshRun minFreq n (exactRewrite mf vocab)

theorem exactRewrite_no_delim (p : SymPair)
    (vocab : List (List String × Nat))
    (hnd : ∀ e ∈ vocab, "==" ∉ e.1) (hab : p.1 ++ p.2 ≠ "==") :
    ∀ e ∈ exactRewrite p vocab, "==" ∉ e.1 := by
  intro e he
  obtain ⟨e0, he0, rfl⟩ := List.mem_map.1 he
  by_cases hocc : (wordPairs e0.1).count p > 0
  · rw [if_pos hocc]
    intro hx
    rcases mem_mergeWordTokens p.1 p.2 e0.1 "=="
        (by
          have hmnd : "==" ∉ mergeWordTokens p.1 p.2 e0.1 → False := fun h2 => h2 (by
            rw [collapseWord_no_delim] at hx
            · exact hx
            · intro hy
              rcases mem_mergeWordTokens p.1 p.2 e0.1 "==" hy with h3 | h3
              · exact hnd e0 he0 h3
              · exact hab h3.symm)
          by_contra h3
          exact hmnd h3) with h2 | h2
    · exact hnd e0 he0 h2
    · exact hab h2.symm
  · rw [if_neg hocc]
    exact hnd e0 he0


/-- C5 amended: under the exact (full-recount) statistics model, the sequence
of selected merge frequencies is monotonically non-increasing, provided that
at every step the merged symbol is fresh (it does not yet occur as a symbol in
any word and is not the boundary delimiter) and the vocabulary is
delimiter-free, so no boundary collapse occurs.  The counterexample
`C5_counterexample` violates freshness (the merged symbol `ab` collides with
an existing symbol) and shows the unconditional claim false. -/
theorem C5_exact_monotone (minFreq : Int) :
    ∀ (n : Nat) (vocab : List (List String × Nat)),
    (∀ e ∈ vocab, "==" ∉ e.1) →
    exactFreshRun minFreq n vocab = true →
    List.Chain' (fun x y : SymPair × Int => y.2 ≤ x.2)
      (exact_loop minFreq n vocab) := by
  intro n
  induction n with
  | zero =>
    intro vocab _ _
    exact List.chain'_nil
  | succ n ih =>
    intro vocab hnd hfresh
    rw [exact_loop]
    rw [exactFreshRun] at hfresh
    cases hg : get_pair_statistics vocab with
    | none => exact List.chain'_nil
    | some si =>
      obtain ⟨stats, ix⟩ := si
      rw [hg] at hfresh
      dsimp only at hfresh ⊢
      cases hm : argmaxEntry stats with
      | none => exact List.chain'_nil
      | some e =>
        obtain ⟨mf, v⟩ := e
        obtain ⟨a, b⟩ := mf
        rw [hm] at hfresh
        dsimp only at hfresh ⊢
        by_cases hv : v < minFreq
        · rw [if_pos hv]
          exact List.chain'_nil
        · rw [if_neg hv]
          rw [if_neg hv, Bool.and_eq_true, Bool.and_eq_true] at hfresh
          obtain ⟨⟨hfall, hab⟩, hrec⟩ := hfresh
          have hf : ∀ e ∈ vocab, (a ++ b) ∉ e.1 := by
            intro e he
            have h1 := List.all_eq_true.1 hfall e he
            simpa using h1
          have hab' : a ++ b ≠ "==" := by simpa using hab
          have hndup := gps_stats_keys_nodup vocab stats ix hg
          have hveq : v = trueFreq vocab (a, b) := by
            rw [← gps_stats_eq_trueFreq vocab stats ix hg (a, b)]
            exact (alookupD_of_mem_nodup stats (a, b) v
              (argmaxEntry_mem stats ((a, b), v) hm) hndup).symm
          have hmax : ∀ q', trueFreq vocab q' ≤ trueFreq vocab (a, b) := by
            intro q'
            rw [← gps_stats_eq_trueFreq vocab stats ix hg q', ← hveq]
            by_cases hk : q' ∈ stats.map Prod.fst
            · exact argmaxEntry_le stats ((a, b), v) hm
                (q', alookupD 0 stats q') (alookupD_mem_of_mem_keys stats q' hk)
            · rw [alookupD_eq_default_of_not_mem 0 stats q' hk, hveq]
              exact trueFreq_nonneg vocab (a, b)
          rw [List.chain'_cons']
          constructor
          · intro y hy
            cases n with
            | zero =>
              rw [show exact_loop minFreq 0 (exactRewrite (a, b) vocab) = []
                from rfl] at hy
              simp at hy
            | succ n2 =>
              rw [exact_loop] at hy
              cases hg2 : get_pair_statistics (exactRewrite (a, b) vocab) with
              | none => rw [hg2] at hy; simp at hy
              | some si2 =>
                obtain ⟨stats2, ix2⟩ := si2
                rw [hg2] at hy
                dsimp only at hy
                cases hm2 : argmaxEntry stats2 with
                | none => rw [hm2] at hy; simp at hy
                | some e2 =>
                  obtain ⟨mf2, v2⟩ := e2
                  rw [hm2] at hy
                  dsimp only at hy
                  by_cases hv2 : v2 < minFreq
                  · rw [if_pos hv2] at hy
                    simp at hy
                  · rw [if_neg hv2] at hy
                    simp only [List.head?_cons, Option.mem_def,
                      Option.some.injEq] at hy
                    subst hy
                    show v2 ≤ v
                    have hndup2 := gps_stats_keys_nodup _ stats2 ix2 hg2
                    have hv2eq :
                        v2 = trueFreq (exactRewrite (a, b) vocab) mf2 := by
                      rw [← gps_stats_eq_trueFreq _ stats2 ix2 hg2 mf2]
                      exact (alookupD_of_mem_nodup stats2 mf2 v2
                        (argmaxEntry_mem stats2 (mf2, v2) hm2) hndup2).symm
                    rw [hv2eq, hveq]
                    exact exactRewrite_trueFreq_le a b vocab mf2 hnd hf hab'
                      hmax
          · exact ih (exactRewrite (a, b) vocab)
              (exactRewrite_no_delim (a, b) vocab hnd hab') hrec

/-- A small delimiter-free corpus on which the freshness side condition of the
exact-model run holds for two steps. -/
def c5witVocab : List (List String × Nat) :=
  [(["a", "b", "</w>"], 3), (["a", "b", "c", "</w>"], 2)]

theorem C5_exact_monotone_witness :
    ((∀ e ∈ c5witVocab, "==" ∉ e.1) ∧ exactFreshRun 2 2 c5witVocab = true) ∧
    List.Chain' (fun x y : SymPair × Int => y.2 ≤ x.2)
      (exact_loop 2 2 c5witVocab) :=
  ⟨⟨by decide, by decide⟩,
    C5_exact_monotone 2 2 c5witVocab (by decide) (by decide)⟩

/-! ## C1/C2 amended: single-step exactness of the incremental update -/

/-- The signed sum of the event values carrying a given pair key. -/
def evSumAt (evs : List (SymPair × Int)) (q : SymPair) : Int :=
  (evs.map (fun ev => if ev.1 = q then ev.2 else 0)).sum

/-- Adjacent-pair count of a symbol sequence, as an integer. -/
def cntI (u : List String) (q : SymPair) : Int :=
  ((spanPairs u).count q : Int)

/-- The per-word occurrence count read off a vocabulary position. -/
def wordCountI (vocab : List (List String × Nat)) (j : Nat) (q : SymPair) :
    Int :=
  match vocab[j]? with
  | some e => ((wordPairs e.1).count q : Int)
  | none => 0

/-- The junction correction of the scan-event induction: in the mismatched
prev state (old scan behind a merged occurrence, new scan behind the merged
symbol) the junction pairs of the two scans differ and are accounted for by
the parent occurrence's events. -/
def Ecorr (a b : String) (q : SymPair) (pv_o pv_n : Option String) :
    List String → Int
  | [] => 0
  | x :: rest =>
    if pv_o = pv_n then 0
    else if x = a ∧ rest.head? = some b then 0
    else (if (a ++ b, x) = q then 1 else 0) - (if (b, x) = q then 1 else 0)

/-- One incremental event applied to the statistics and index tables
(the loop body of `update_pair_statistics`, for word index `j` of
frequency `freq`). -/
def updEventStep (j : Nat) (freq : Nat) (si : Stats × Indices)
    (ev : SymPair × Int) : Stats × Indices :=
  (aincr si.1 ev.1 (ev.2 * (freq : Int)),
   aset si.2 ev.1 (aincr (alookupD [] si.2 ev.1) j ev.2))

/-- The per-changed-word application of `update_pair_statistics`. -/
def updWordStep (pair : SymPair) (si : Stats × Indices)
    (ch : Nat × List String × List String × Nat) : Stats × Indices :=
  (updateEvents pair ch.2.1 ch.2.2.1).foldl (updEventStep ch.1 ch.2.2.2) si

theorem update_pair_statistics_eq (pair : SymPair)
    (changed : List (Nat × List String × List String × Nat))
    (stats : Stats) (indices : Indices) :
    update_pair_statistics pair changed stats indices =
      changed.foldl (updWordStep pair) (aset stats pair 0, aset indices pair []) :=
  rfl

/-- The changes recorded by the `replace_pair` fold, written explicitly from
the inverted-index items. -/
def changesOf (pair : SymPair) (vocab : List (List String × Nat))
    (items : List (Nat × Int)) :
    List (Nat × List String × List String × Nat) :=
  items.filterMap (fun it =>
    if 1 ≤ it.2 then
      match vocab[it.1]? with
      | some e =>
        some (it.1, collapseWord (mergeWordTokens pair.1 pair.2 e.1), e.1, e.2)
      | none => none
    else none)

theorem evSumAt_nil (q : SymPair) : evSumAt [] q = 0 := rfl

theorem evSumAt_cons (ev : SymPair × Int) (evs : List (SymPair × Int))
    (q : SymPair) :
    evSumAt (ev :: evs) q = (if ev.1 = q then ev.2 else 0) + evSumAt evs q := by
  simp [evSumAt]

theorem evSumAt_append (l1 l2 : List (SymPair × Int)) (q : SymPair) :
    evSumAt (l1 ++ l2) q = evSumAt l1 q + evSumAt l2 q := by
  simp [evSumAt]

theorem cntI_nil (q : SymPair) : cntI [] q = 0 := rfl

theorem cntI_single (x : String) (q : SymPair) : cntI [x] q = 0 := rfl

theorem cntI_cons2 (x y : String) (u : List String) (q : SymPair) :
    cntI (x :: y :: u) q =
      (if (x, y) = q then 1 else 0) + cntI (y :: u) q := by
  unfold cntI
  rw [show spanPairs (x :: y :: u) = (x, y) :: spanPairs (y :: u) from rfl,
    List.count_cons]
  simp only [beq_iff_eq]
  split_ifs <;> push_cast <;> ring

theorem cntI_nonneg (u : List String) (q : SymPair) : 0 ≤ cntI u q := by
  unfold cntI
  positivity

theorem Ecorr_self (a b : String) (q : SymPair) (pv : Option String)
    (w : List String) : Ecorr a b q pv pv w = 0 := by
  cases w with
  | nil => rfl
  | cons x rest => simp [Ecorr]

theorem append_ne_right (a b : String) (ha : a ≠ "") : a ++ b ≠ b := by
  intro h
  have hl := congrArg String.length h
  rw [String.length_append] at hl
  have h0 : a.length = 0 := by omega
  exact ha (String.ext (List.length_eq_zero.1 h0))

theorem append_ne_left (a b : String) (hb : b ≠ "") : a ++ b ≠ a := by
  intro h
  have hl := congrArg String.length h
  rw [String.length_append] at hl
  have h0 : b.length = 0 := by omega
  exact hb (String.ext (List.length_eq_zero.1 h0))

theorem sum_nonpos_of_nonpos (l : List Int) (h : ∀ x ∈ l, x ≤ 0) :
    l.sum ≤ 0 := by
  induction l with
  | nil => simp
  | cons x xs ih =>
    simp only [List.sum_cons]
    have h1 := h x (List.mem_cons_self x xs)
    have h2 := ih (fun y hy => h y (List.mem_cons_of_mem x hy))
    omega

theorem oldScan_nil (a b : String) (pv : Option String) :
    oldScanEvents a b pv [] = [] := rfl

theorem oldScan_single (a b x : String) (pv : Option String) :
    oldScanEvents a b pv [x] = [] := rfl

theorem oldScan_match (a b : String) (pv : Option String) (rest : List String) :
    oldScanEvents a b pv (a :: b :: rest) =
      (match pv with
       | none => []
       | some p => if p = "==" ∨ a = "==" then [] else [((p, a), -1)]) ++
      ((match rest with
       | [] => []
       | z :: rest2 =>
         if z = a ∧ rest2.head? = some b then []
         else if b = "==" ∨ z = "==" then [] else [((b, z), -1)]) ++
      oldScanEvents a b (some b) rest) := by
  rw [oldScanEvents.eq_def]
  dsimp only
  rw [if_pos (⟨rfl, rfl⟩ : a = a ∧ b = b), List.append_assoc]

theorem oldScan_nomatch (a b x y : String) (pv : Option String)
    (rest : List String) (hm : ¬(x = a ∧ y = b)) :
    oldScanEvents a b pv (x :: y :: rest) =
      oldScanEvents a b (some x) (y :: rest) := by
  rw [oldScanEvents.eq_def]
  dsimp only
  rw [if_neg hm]

theorem newScan_nil (np : String) (pv : Option String) :
    newScanEvents np pv [] = [] := rfl

theorem newScan_match (np : String) (pv : Option String) (rest : List String) :
    newScanEvents np pv (np :: rest) =
      (match pv with
       | none => []
       | some p => if p = "==" ∨ np = "==" then [] else [((p, np), 1)]) ++
      ((match rest with
       | [] => []
       | z :: _ => if z = np then []
                   else if np = "==" ∨ z = "==" then [] else [((np, z), 1)]) ++
      newScanEvents np (some np) rest) := by
  rw [newScanEvents.eq_def]
  dsimp only
  rw [if_pos rfl, List.append_assoc]

theorem newScan_nomatch (np x : String) (pv : Option String)
    (rest : List String) (hx : x ≠ np) :
    newScanEvents np pv (x :: rest) = newScanEvents np (some x) rest := by
  rw [newScanEvents.eq_def]
  dsimp only
  rw [if_neg hx]

theorem merge_nil (a b : String) : mergeWordTokens a b [] = [] := rfl

theorem merge_single (a b x : String) : mergeWordTokens a b [x] = [x] := rfl

theorem merge_match (a b : String) (rest : List String) :
    mergeWordTokens a b (a :: b :: rest) =
      (a ++ b) :: mergeWordTokens a b rest := by
  rw [mergeWordTokens, if_pos (⟨rfl, rfl⟩ : a = a ∧ b = b)]

theorem merge_nomatch (a b x y : String) (rest : List String)
    (hm : ¬(x = a ∧ y = b)) :
    mergeWordTokens a b (x :: y :: rest) =
      x :: mergeWordTokens a b (y :: rest) := by
  rw [mergeWordTokens, if_neg hm]

theorem merge_head_nomatch (a b z : String) (rest2 : List String)
    (h : ¬(z = a ∧ rest2.head? = some b)) :
    ∃ t, mergeWordTokens a b (z :: rest2) = z :: t := by
  cases rest2 with
  | nil => exact ⟨[], rfl⟩
  | cons u us =>
    refine ⟨mergeWordTokens a b (u :: us), ?_⟩
    exact merge_nomatch a b z u us (fun hx => h ⟨hx.1, by rw [hx.2]; rfl⟩)

theorem ite_neg_one (c : Prop) [Decidable c] :
    (if c then (-1 : Int) else 0) = -(if c then (1 : Int) else 0) := by
  split_ifs <;> norm_num

theorem Ecorr_nil (a b : String) (q : SymPair) (pv_o pv_n : Option String) :
    Ecorr a b q pv_o pv_n [] = 0 := rfl

/-- The central per-word identity of the incremental update: on a
delimiter-free word not containing the merged symbol, the signed event sums
of the two `update_pair_statistics` scans (old word and merged word), plus
the junction correction for the scan states, equal the change in
adjacent-pair count from the old word to the merged word — for every pair
other than the merged pair itself. -/
theorem scan_events_delta (a b : String) (q : SymPair) (hq : q ≠ (a, b))
    (ha0 : a ≠ "") (hb0 : b ≠ "")
    (ha2 : a ≠ "==") (hb2 : b ≠ "==") (hnp2 : a ++ b ≠ "==") :
    ∀ w : List String, "==" ∉ w → (a ++ b) ∉ w →
    ∀ pv_o pv_n : Option String,
    ((pv_o = pv_n ∧ ∀ t, pv_o = some t → t ≠ "==") ∨
      (pv_o = some b ∧ pv_n = some (a ++ b))) →
    evSumAt (oldScanEvents a b pv_o w) q +
      evSumAt (newScanEvents (a ++ b) pv_n (mergeWordTokens a b w)) q +
      Ecorr a b q pv_o pv_n w =
    cntI (pv_n.toList ++ mergeWordTokens a b w) q -
      cntI (pv_o.toList ++ w) q := by
  have hqr : ¬((a, b) = q) := fun h => hq h.symm
  have hsbn : (some b : Option String) ≠ some (a ++ b) :=
    fun h => append_ne_right a b ha0 (Option.some.inj h).symm
  intro w
  induction w using mergeWordTokens.induct a b with
  | case1 x y rest hm ih =>
    obtain ⟨rfl, rfl⟩ := hm
    intro hdel hfr pv_o pv_n hinv
    have hdtail : "==" ∉ y :: rest := fun h => hdel (List.mem_cons_of_mem _ h)
    have hdrest : "==" ∉ rest := fun h => hdtail (List.mem_cons_of_mem _ h)
    have hftail : (x ++ y) ∉ y :: rest :=
      fun h => hfr (List.mem_cons_of_mem _ h)
    have hfrest : (x ++ y) ∉ rest := fun h => hftail (List.mem_cons_of_mem _ h)
    rw [merge_match, oldScan_match, newScan_match]
    simp only [evSumAt_append]
    rcases rest with _ | ⟨z, rest2⟩
    · -- rest = []
      rw [merge_nil, oldScan_nil, newScan_nil]
      dsimp only
      rcases hinv with ⟨rfl, hsafe⟩ | ⟨rfl, rfl⟩
      · cases pv_o with
        | none =>
          rw [Ecorr_self]
          dsimp only [Option.toList]
          simp only [List.nil_append, evSumAt_cons, evSumAt_nil, cntI_cons2,
            cntI_single]
          simp only [if_neg hqr, ite_neg_one]
          linarith
        | some t =>
          have ht : t ≠ "==" := hsafe t rfl
          rw [Ecorr_self]
          dsimp only [Option.toList]
          rw [if_neg (not_or.2 ⟨ht, ha2⟩), if_neg (not_or.2 ⟨ht, hnp2⟩)]
          simp only [List.singleton_append, evSumAt_cons, evSumAt_nil,
            cntI_cons2, cntI_single]
          simp only [if_neg hqr, ite_neg_one]
          linarith
      · have hE : Ecorr x y q (some y) (some (x ++ y)) [x, y] = 0 := by
          simp [Ecorr, if_neg hsbn]
        rw [hE]
        dsimp only [Option.toList]
        rw [if_neg (not_or.2 ⟨hb2, ha2⟩), if_neg (not_or.2 ⟨hnp2, hnp2⟩)]
        simp only [List.singleton_append, evSumAt_cons, evSumAt_nil,
          cntI_cons2, cntI_single]
        simp only [if_neg hqr, ite_neg_one]
        linarith
    · -- rest = z :: rest2
      have hdz : z ≠ "==" := fun h => hdrest (List.mem_cons.2 (Or.inl h.symm))
      have hfz : z ≠ x ++ y := fun h => hfrest (List.mem_cons.2 (Or.inl h.symm))
      have hih := ih hdrest hfrest (some y) (some (x ++ y)) (Or.inr ⟨rfl, rfl⟩)
      by_cases hded : z = x ∧ rest2.head? = some y
      · obtain ⟨hz, hh⟩ := hded
        obtain rfl := hz.symm
        rcases rest2 with _ | ⟨u, us⟩
        · cases hh
        · obtain rfl := (Option.some.inj hh).symm
          have hE : Ecorr x y q (some y) (some (x ++ y)) (x :: y :: us) = 0 := by
            simp [Ecorr, if_neg hsbn]
          rw [hE] at hih
          rw [merge_match] at hih ⊢
          dsimp only
          rw [if_pos (⟨rfl, rfl⟩ : x = x ∧ (y :: us).head? = some y),
            if_pos (rfl : x ++ y = x ++ y)]
          rcases hinv with ⟨rfl, hsafe⟩ | ⟨rfl, rfl⟩
          · cases pv_o with
            | none =>
              rw [Ecorr_self]
              dsimp only [Option.toList] at hih ⊢
              simp only [List.nil_append, List.singleton_append, evSumAt_cons,
                evSumAt_nil, cntI_cons2] at hih ⊢
              simp only [if_neg hqr, ite_neg_one] at hih ⊢
              linarith
            | some t =>
              have ht : t ≠ "==" := hsafe t rfl
              rw [Ecorr_self]
              dsimp only [Option.toList] at hih ⊢
              rw [if_neg (not_or.2 ⟨ht, ha2⟩), if_neg (not_or.2 ⟨ht, hnp2⟩)]
              simp only [List.singleton_append, evSumAt_cons, evSumAt_nil,
                cntI_cons2] at hih ⊢
              simp only [if_neg hqr, ite_neg_one] at hih ⊢
              linarith
          · have hEp : Ecorr x y q (some y) (some (x ++ y))
                (x :: y :: x :: y :: us) = 0 := by
              simp [Ecorr, if_neg hsbn]
            rw [hEp]
            dsimp only [Option.toList] at hih ⊢
            rw [if_neg (not_or.2 ⟨hb2, ha2⟩), if_neg (not_or.2 ⟨hnp2, hnp2⟩)]
            simp only [List.singleton_append, evSumAt_cons, evSumAt_nil,
              cntI_cons2] at hih ⊢
            simp only [if_neg hqr, ite_neg_one] at hih ⊢
            linarith
      · -- no consecutive occurrence
        have hE : Ecorr x y q (some y) (some (x ++ y)) (z :: rest2) =
            (if (x ++ y, z) = q then 1 else 0) -
              (if (y, z) = q then 1 else 0) := by
          simp only [Ecorr, if_neg hsbn]
          rw [if_neg hded]
        rw [hE] at hih
        obtain ⟨tl, htl⟩ := merge_head_nomatch x y z rest2 hded
        rw [htl] at hih ⊢
        dsimp only
        rw [if_neg hded, if_neg (not_or.2 ⟨hb2, hdz⟩),
          if_neg hfz, if_neg (not_or.2 ⟨hnp2, hdz⟩)]
        rcases hinv with ⟨rfl, hsafe⟩ | ⟨rfl, rfl⟩
        · cases pv_o with
          | none =>
            rw [Ecorr_self]
            dsimp only [Option.toList] at hih ⊢
            simp only [List.nil_append, List.singleton_append, evSumAt_cons,
              evSumAt_nil, cntI_cons2] at hih ⊢
            simp only [if_neg hqr, ite_neg_one] at hih ⊢
            linarith
          | some t =>
            have ht : t ≠ "==" := hsafe t rfl
            rw [Ecorr_self]
            dsimp only [Option.toList] at hih ⊢
            rw [if_neg (not_or.2 ⟨ht, ha2⟩), if_neg (not_or.2 ⟨ht, hnp2⟩)]
            simp only [List.singleton_append, evSumAt_cons, evSumAt_nil,
              cntI_cons2] at hih ⊢
            simp only [if_neg hqr, ite_neg_one] at hih ⊢
            linarith
        · have hEp : Ecorr x y q (some y) (some (x ++ y))
              (x :: y :: z :: rest2) = 0 := by
            simp [Ecorr, if_neg hsbn]
          rw [hEp]
          dsimp only [Option.toList] at hih ⊢
          rw [if_neg (not_or.2 ⟨hb2, ha2⟩), if_neg (not_or.2 ⟨hnp2, hnp2⟩)]
          simp only [List.singleton_append, evSumAt_cons, evSumAt_nil,
            cntI_cons2] at hih ⊢
          simp only [if_neg hqr, ite_neg_one] at hih ⊢
          linarith
  | case2 x y rest hm ih =>
    intro hdel hfr pv_o pv_n hinv
    have hdx : x ≠ "==" := fun h => hdel (List.mem_cons.2 (Or.inl h.symm))
    have hdtail : "==" ∉ y :: rest := fun h => hdel (List.mem_cons_of_mem _ h)
    have hfx : x ≠ a ++ b := fun h => hfr (List.mem_cons.2 (Or.inl h.symm))
    have hftail : (a ++ b) ∉ y :: rest :=
      fun h => hfr (List.mem_cons_of_mem _ h)
    have hih := ih hdtail hftail (some x) (some x)
      (Or.inl ⟨rfl, fun t ht => by
        obtain rfl : x = t := Option.some.inj ht
        exact hdx⟩)
    rw [Ecorr_self] at hih
    rw [merge_nomatch a b x y rest hm, oldScan_nomatch a b x y pv_o rest hm,
      newScan_nomatch (a ++ b) x pv_n (mergeWordTokens a b (y :: rest)) hfx]
    rcases hinv with ⟨rfl, hsafe⟩ | ⟨rfl, rfl⟩
    · rw [Ecorr_self]
      cases pv_o with
      | none =>
        dsimp only [Option.toList] at hih ⊢
        simp only [List.nil_append, List.singleton_append, evSumAt_cons,
          evSumAt_nil, cntI_cons2] at hih ⊢
        linarith
      | some t =>
        dsimp only [Option.toList] at hih ⊢
        simp only [List.singleton_append, evSumAt_cons, evSumAt_nil,
          cntI_cons2] at hih ⊢
        linarith
    · have hEp : Ecorr a b q (some b) (some (a ++ b)) (x :: y :: rest) =
          (if (a ++ b, x) = q then 1 else 0) -
            (if (b, x) = q then 1 else 0) := by
        simp only [Ecorr, if_neg hsbn]
        rw [if_neg (fun hc => hm ⟨hc.1, Option.some.inj hc.2⟩)]
      rw [hEp]
      dsimp only [Option.toList] at hih ⊢
      simp only [List.singleton_append, evSumAt_cons, evSumAt_nil,
        cntI_cons2] at hih ⊢
      linarith
  | case3 w hw =>
    intro hdel hfr pv_o pv_n hinv
    cases w with
    | nil =>
      rw [merge_nil, oldScan_nil, newScan_nil, Ecorr_nil]
      rcases hinv with ⟨rfl, hsafe⟩ | ⟨rfl, rfl⟩
      · cases pv_o with
        | none =>
          dsimp only [Option.toList]
          simp only [List.nil_append, evSumAt_nil, cntI_nil]
          linarith
        | some t =>
          dsimp only [Option.toList]
          simp only [List.append_nil, evSumAt_nil, cntI_single]
          linarith
      · dsimp only [Option.toList]
        simp only [List.append_nil, evSumAt_nil, cntI_single]
        linarith
    | cons x rest =>
      cases rest with
      | nil =>
        have hfx : x ≠ a ++ b := fun h => hfr (List.mem_cons.2 (Or.inl h.symm))
        rw [merge_single, oldScan_single,
          newScan_nomatch (a ++ b) x pv_n [] hfx, newScan_nil]
        rcases hinv with ⟨rfl, hsafe⟩ | ⟨rfl, rfl⟩
        · rw [Ecorr_self]
          cases pv_o with
          | none =>
            dsimp only [Option.toList]
            simp only [List.nil_append, evSumAt_nil, cntI_single]
            linarith
          | some t =>
            dsimp only [Option.toList]
            simp only [List.singleton_append, evSumAt_nil, cntI_cons2,
              cntI_single]
            linarith
        · have hE : Ecorr a b q (some b) (some (a ++ b)) [x] =
              (if (a ++ b, x) = q then 1 else 0) -
                (if (b, x) = q then 1 else 0) := by
            simp only [Ecorr, if_neg hsbn]
            rw [if_neg (fun hc => Option.noConfusion hc.2)]
          rw [hE]
          dsimp only [Option.toList]
          simp only [List.singleton_append, evSumAt_nil, cntI_cons2,
            cntI_single]
          linarith
      | cons y rest2 => exact absurd rfl (hw x y rest2)

theorem merge_cntI_pair_zero (a b : String) (ha0 : a ≠ "") (hb0 : b ≠ "") :
    ∀ w : List String, (a ++ b) ∉ w →
    cntI (mergeWordTokens a b w) (a, b) = 0 := by
  intro w
  induction w using mergeWordTokens.induct a b with
  | case1 x y rest hm ih =>
    obtain ⟨rfl, rfl⟩ := hm
    intro hf
    have hfrest : (x ++ y) ∉ rest :=
      fun h => hf (List.mem_cons_of_mem _ (List.mem_cons_of_mem _ h))
    have ihh := ih hfrest
    rw [merge_match]
    cases hM : mergeWordTokens x y rest with
    | nil => exact cntI_single _ _
    | cons h t =>
      rw [hM] at ihh
      rw [cntI_cons2,
        if_neg (fun hc => append_ne_left x y hb0 (congrArg Prod.fst hc))]
      linarith
  | case2 x y rest hm ih =>
    intro hf
    have hftail : (a ++ b) ∉ y :: rest :=
      fun h => hf (List.mem_cons_of_mem _ h)
    have ihh := ih hftail
    rw [merge_nomatch a b x y rest hm]
    rcases mergeWordTokens_cons_shape a b y rest with ⟨t, ht⟩ | ⟨t, ht⟩
    · rw [ht] at ihh ⊢
      rw [cntI_cons2,
        if_neg (fun hc => append_ne_right a b ha0 (congrArg Prod.snd hc))]
      linarith
    · rw [ht] at ihh ⊢
      rw [cntI_cons2, if_neg (fun hc =>
        hm ⟨congrArg Prod.fst hc, congrArg Prod.snd hc⟩)]
      linarith
  | case3 w hw =>
    intro hf
    cases w with
    | nil => rfl
    | cons x rest =>
      cases rest with
      | nil => rw [merge_single]; exact cntI_single _ _
      | cons y rest2 => exact absurd rfl (hw x y rest2)

theorem oldScanEvents_val (a b : String) :
    ∀ (w : List String) (pv : Option String) (ev : SymPair × Int),
    ev ∈ oldScanEvents a b pv w → ev.2 = -1 := by
  intro w
  induction w using mergeWordTokens.induct a b with
  | case1 x y rest hm ih =>
    obtain ⟨rfl, rfl⟩ := hm
    intro pv ev hev
    rw [oldScan_match] at hev
    simp only [List.mem_append] at hev
    rcases hev with h | h | h
    · cases pv with
      | none => cases h
      | some p =>
        dsimp only at h
        split_ifs at h
        · cases h
        · simp only [List.mem_singleton] at h
          rw [h]
    · rcases rest with _ | ⟨z, rest2⟩
      · cases h
      · dsimp only at h
        split_ifs at h
        · cases h
        · cases h
        · simp only [List.mem_singleton] at h
          rw [h]
    · exact ih (some y) ev h
  | case2 x y rest hm ih =>
    intro pv ev hev
    rw [oldScan_nomatch a b x y pv rest hm] at hev
    exact ih (some x) ev hev
  | case3 w hw =>
    intro pv ev hev
    cases w with
    | nil => cases hev
    | cons x rest =>
      cases rest with
      | nil => cases hev
      | cons y rest2 => exact absurd rfl (hw x y rest2)

theorem newScanEvents_key (np : String) :
    ∀ (u : List String) (pv : Option String) (ev : SymPair × Int),
    ev ∈ newScanEvents np pv u → ev.1.1 = np ∨ ev.1.2 = np := by
  intro u
  induction u with
  | nil => intro pv ev h; cases h
  | cons x rest ih =>
    intro pv ev h
    by_cases hx : x = np
    · rw [hx, newScan_match] at h
      simp only [List.mem_append] at h
      rcases h with h | h | h
      · cases pv with
        | none => cases h
        | some p =>
          dsimp only at h
          split_ifs at h
          · cases h
          · simp only [List.mem_singleton] at h
            rw [h]
            exact Or.inr rfl
      · rcases rest with _ | ⟨z, rest2⟩
        · cases h
        · dsimp only at h
          split_ifs at h
          · cases h
          · cases h
          · simp only [List.mem_singleton] at h
            rw [h]
            exact Or.inl rfl
      · exact ih (some np) ev h
    · rw [newScan_nomatch np x pv rest hx] at h
      exact ih (some x) ev h

theorem evSumAt_nonpos (evs : List (SymPair × Int)) (q : SymPair)
    (h : ∀ ev ∈ evs, ev.1 = q → ev.2 ≤ 0) : evSumAt evs q ≤ 0 := by
  induction evs with
  | nil => rw [evSumAt_nil]
  | cons ev evs ih =>
    rw [evSumAt_cons]
    have h2 := ih (fun e he hq => h e (List.mem_cons_of_mem _ he) hq)
    by_cases hc : ev.1 = q
    · rw [if_pos hc]
      have h1 := h ev (List.mem_cons_self _ _) hc
      linarith
    · rw [if_neg hc]
      linarith

theorem evSumAt_zero (evs : List (SymPair × Int)) (q : SymPair)
    (h : ∀ ev ∈ evs, ev.1 ≠ q) : evSumAt evs q = 0 := by
  induction evs with
  | nil => rfl
  | cons ev evs ih =>
    rw [evSumAt_cons, if_neg (h ev (List.mem_cons_self _ _)),
      ih (fun e he => h e (List.mem_cons_of_mem _ he))]
    linarith

/-- On a delimiter-free word, the collapse step is the identity and the
per-word event sum of `update_pair_statistics` equals the change in
adjacent-pair count, for every pair other than the merged one. -/
theorem updateEvents_delta (a b : String) (w : List String)
    (hw1 : "==" ∉ w) (hw2 : (a ++ b) ∉ w)
    (ha0 : a ≠ "") (hb0 : b ≠ "") (ha2 : a ≠ "==") (hb2 : b ≠ "==")
    (hnp2 : a ++ b ≠ "==") (q : SymPair) (hq : q ≠ (a, b)) :
    evSumAt (updateEvents (a, b) (collapseWord (mergeWordTokens a b w)) w) q =
      cntI (mergeWordTokens a b w) q - cntI w q := by
  have hmd : "==" ∉ mergeWordTokens a b w := by
    intro hx
    rcases mem_mergeWordTokens a b w "==" hx with h | h
    · exact hw1 h
    · exact hnp2 h.symm
  rw [collapseWord_no_delim _ hmd, updateEvents,
    if_neg (fun hc => hw1 hc.1)]
  dsimp only
  rw [evSumAt_append]
  have hmain := scan_events_delta a b q hq ha0 hb0 ha2 hb2 hnp2 w hw1 hw2
    none none (Or.inl ⟨rfl, fun t ht => Option.noConfusion ht⟩)
  rw [Ecorr_self] at hmain
  dsimp only [Option.toList] at hmain
  simp only [List.nil_append] at hmain
  linarith

/-- The merged pair's own event sum is never positive: the old-word scan only
emits decrements, and the new-word scan only emits keys containing the merged
symbol, which cannot equal either side of the pair. -/
theorem updateEvents_pair_nonpos (a b : String) (w : List String)
    (hw1 : "==" ∉ w) (ha0 : a ≠ "") (hb0 : b ≠ "") (hnp2 : a ++ b ≠ "==") :
    evSumAt (updateEvents (a, b) (collapseWord (mergeWordTokens a b w)) w)
      (a, b) ≤ 0 := by
  have hmd : "==" ∉ mergeWordTokens a b w := by
    intro hx
    rcases mem_mergeWordTokens a b w "==" hx with h | h
    · exact hw1 h
    · exact hnp2 h.symm
  rw [collapseWord_no_delim _ hmd, updateEvents,
    if_neg (fun hc => hw1 hc.1)]
  dsimp only
  rw [evSumAt_append]
  have h1 : evSumAt (oldScanEvents a b none w) (a, b) ≤ 0 :=
    evSumAt_nonpos _ _ (fun ev hev _ => by
      rw [oldScanEvents_val a b w none ev hev]
      norm_num)
  have h2 : evSumAt (newScanEvents (a ++ b) none (mergeWordTokens a b w))
      (a, b) = 0 :=
    evSumAt_zero _ _ (fun ev hev hk => by
      rcases newScanEvents_key (a ++ b) (mergeWordTokens a b w) none ev hev
        with h | h
      · rw [hk] at h
        exact append_ne_left a b hb0 h.symm
      · rw [hk] at h
        exact append_ne_right a b ha0 h.symm)
  linarith

theorem updEventStep_fold_stats (j : Nat) (freq : Nat) :
    ∀ (evs : List (SymPair × Int)) (si : Stats × Indices) (q : SymPair),
    alookupD 0 ((evs.foldl (updEventStep j freq) si).1) q =
      alookupD 0 si.1 q + (freq : Int) * evSumAt evs q := by
  intro evs
  induction evs with
  | nil =>
    intro si q
    rw [List.foldl_nil, evSumAt_nil]
    ring
  | cons ev evs ih =>
    intro si q
    rw [List.foldl_cons, ih, evSumAt_cons]
    show alookupD 0 (aincr si.1 ev.1 (ev.2 * (freq : Int))) q + _ = _
    rw [alookupD_aincr]
    split_ifs <;> ring

theorem updEventStep_fold_idx (j : Nat) (freq : Nat) :
    ∀ (evs : List (SymPair × Int)) (si : Stats × Indices) (q : SymPair)
      (j' : Nat),
    alookupD 0 (alookupD [] ((evs.foldl (updEventStep j freq) si).2) q) j' =
      alookupD 0 (alookupD [] si.2 q) j' +
        (if j = j' then evSumAt evs q else 0) := by
  intro evs
  induction evs with
  | nil =>
    intro si q j'
    rw [List.foldl_nil, evSumAt_nil]
    split_ifs <;> ring
  | cons ev evs ih =>
    intro si q j'
    rw [List.foldl_cons, ih, evSumAt_cons]
    by_cases hk : ev.1 = q
    · subst hk
      show alookupD 0 (alookupD []
        (aset si.2 ev.1 (aincr (alookupD [] si.2 ev.1) j ev.2)) ev.1) j' + _ = _
      rw [alookupD_aset_self, alookupD_aincr, if_pos rfl]
      split_ifs <;> ring
    · show alookupD 0 (alookupD []
        (aset si.2 ev.1 (aincr (alookupD [] si.2 ev.1) j ev.2)) q) j' + _ = _
      rw [alookupD_aset_ne _ _ _ _ _ hk, if_neg hk]
      split_ifs <;> ring

theorem updWordStep_fold_stats (pair : SymPair) :
    ∀ (changed : List (Nat × List String × List String × Nat))
      (si : Stats × Indices) (q : SymPair),
    alookupD 0 ((changed.foldl (updWordStep pair) si).1) q =
      alookupD 0 si.1 q +
        (changed.map (fun ch => (ch.2.2.2 : Int) *
          evSumAt (updateEvents pair ch.2.1 ch.2.2.1) q)).sum := by
  intro changed
  induction changed with
  | nil =>
    intro si q
    rw [List.foldl_nil, List.map_nil, List.sum_nil]
    ring
  | cons ch changed ih =>
    intro si q
    rw [List.foldl_cons, ih, List.map_cons, List.sum_cons]
    show alookupD 0 (((updateEvents pair ch.2.1 ch.2.2.1).foldl
      (updEventStep ch.1 ch.2.2.2) si).1) q + _ = _
    rw [updEventStep_fold_stats]
    ring

theorem updWordStep_fold_idx (pair : SymPair) :
    ∀ (changed : List (Nat × List String × List String × Nat))
      (si : Stats × Indices) (q : SymPair) (j' : Nat),
    alookupD 0 (alookupD [] ((changed.foldl (updWordStep pair) si).2) q) j' =
      alookupD 0 (alookupD [] si.2 q) j' +
        (changed.map (fun ch => if ch.1 = j'
          then evSumAt (updateEvents pair ch.2.1 ch.2.2.1) q else 0)).sum := by
  intro changed
  induction changed with
  | nil =>
    intro si q j'
    rw [List.foldl_nil, List.map_nil, List.sum_nil]
    ring
  | cons ch changed ih =>
    intro si q j'
    rw [List.foldl_cons, ih, List.map_cons, List.sum_cons]
    show alookupD 0 (alookupD [] (((updateEvents pair ch.2.1 ch.2.2.1).foldl
      (updEventStep ch.1 ch.2.2.2) si).2) q) j' + _ = _
    rw [updEventStep_fold_idx]
    ring

theorem trueFreq_set (v : List (List String × Nat)) :
    ∀ (j : Nat) (w nw : List String) (f : Nat), v[j]? = some (w, f) →
    ∀ q, trueFreq (v.set j (nw, f)) q =
      trueFreq v q + (f : Int) *
        (((wordPairs nw).count q : Int) - ((wordPairs w).count q : Int)) := by
  induction v with
  | nil => intro j w nw f h; cases h
  | cons e v ih =>
    intro j w nw f h q
    cases j with
    | zero =>
      rw [List.getElem?_cons_zero] at h
      obtain rfl := Option.some.inj h
      rw [List.set_cons_zero, trueFreq_cons, trueFreq_cons]
      dsimp only
      ring
    | succ j =>
      rw [List.getElem?_cons_succ] at h
      rw [List.set_cons_succ, trueFreq_cons, trueFreq_cons, ih j w nw f h q]
      ring

theorem sum_eq_zero_int (l : List Int) (h : ∀ x ∈ l, x = 0) : l.sum = 0 := by
  induction l with
  | nil => rfl
  | cons x xs ih =>
    rw [List.sum_cons, h x (List.mem_cons_self _ _),
      ih (fun y hy => h y (List.mem_cons_of_mem _ hy))]
    ring

theorem replace_fold_changes (pair : SymPair) (vocab : List (List String × Nat)) :
    ∀ (items : List (Nat × Int))
      (acc : List (List String × Nat) ×
        List (Nat × List String × List String × Nat)),
    (∀ it ∈ items, acc.1[it.1]? = vocab[it.1]?) →
    (items.map Prod.fst).Nodup →
    (items.foldl (replaceStep pair) acc).2 = acc.2 ++ changesOf pair vocab items := by
  intro items
  induction items with
  | nil =>
    intro acc _ _
    simp [changesOf]
  | cons it items ih =>
    intro acc hagree hnd
    simp only [List.map_cons, List.nodup_cons] at hnd
    simp only [List.foldl_cons]
    have hagree' : ∀ it' ∈ items, acc.1[it'.1]? = vocab[it'.1]? :=
      fun it' h => hagree it' (List.mem_cons_of_mem _ h)
    by_cases h1 : it.2 < 1
    · have hskip : replaceStep pair acc it = acc := by
        unfold replaceStep
        rw [if_pos h1]
      have hco : changesOf pair vocab (it :: items) =
          changesOf pair vocab items := by
        simp only [changesOf, List.filterMap_cons]
        rw [if_neg (not_le.2 h1)]
      rw [hskip, hco, ih acc hagree' hnd.2]
    · have hge : (1 : Int) ≤ it.2 := not_lt.1 h1
      have hacc := hagree it (List.mem_cons_self _ _)
      cases hv : vocab[it.1]? with
      | none =>
        have hskip : replaceStep pair acc it = acc := by
          unfold replaceStep
          rw [if_neg h1, hacc, hv]
        have hco : changesOf pair vocab (it :: items) =
            changesOf pair vocab items := by
          simp only [changesOf, List.filterMap_cons]
          rw [if_pos hge, hv]
        rw [hskip, hco, ih acc hagree' hnd.2]
      | some e =>
        obtain ⟨w, f⟩ := e
        have hstep : replaceStep pair acc it =
            (acc.1.set it.1 (collapseWord (mergeWordTokens pair.1 pair.2 w), f),
             acc.2 ++ [(it.1, collapseWord (mergeWordTokens pair.1 pair.2 w),
               w, f)]) := by
          unfold replaceStep
          rw [if_neg h1, hacc, hv]
        have hco : changesOf pair vocab (it :: items) =
            (it.1, collapseWord (mergeWordTokens pair.1 pair.2 w), w, f) ::
              changesOf pair vocab items := by
          simp only [changesOf, List.filterMap_cons]
          rw [if_pos hge, hv]
        have hagree2 : ∀ it' ∈ items,
            (acc.1.set it.1 (collapseWord (mergeWordTokens pair.1 pair.2 w),
              f))[it'.1]? = vocab[it'.1]? := by
          intro it' h
          have hne : it.1 ≠ it'.1 := by
            intro hx
            exact hnd.1 (hx ▸ List.mem_map.2 ⟨it', h, rfl⟩)
          rw [List.getElem?_set_ne hne]
          exact hagree' it' h
        rw [hstep, hco, ih _ hagree2 hnd.2]
        dsimp only
        rw [List.append_assoc, List.singleton_append]

theorem changesOf_mem (pair : SymPair) (vocab : List (List String × Nat)) :
    ∀ (items : List (Nat × Int)) (ch : Nat × List String × List String × Nat),
    ch ∈ changesOf pair vocab items →
    ∃ c : Int, (ch.1, c) ∈ items ∧ 1 ≤ c ∧
      vocab[ch.1]? = some (ch.2.2.1, ch.2.2.2) ∧
      ch.2.1 = collapseWord (mergeWordTokens pair.1 pair.2 ch.2.2.1) := by
  intro items
  induction items with
  | nil => intro ch h; cases h
  | cons it items ih =>
    intro ch h
    simp only [changesOf, List.filterMap_cons] at h
    by_cases h1 : (1 : Int) ≤ it.2
    · rw [if_pos h1] at h
      cases hv : vocab[it.1]? with
      | none =>
        rw [hv] at h
        obtain ⟨c, hc1, hc2, hc3, hc4⟩ := ih ch h
        exact ⟨c, List.mem_cons_of_mem _ hc1, hc2, hc3, hc4⟩
      | some e =>
        obtain ⟨w, f⟩ := e
        rw [hv] at h
        rcases List.mem_cons.1 h with rfl | h2
        · exact ⟨it.2, List.mem_cons.2 (Or.inl rfl), h1, hv, rfl⟩
        · obtain ⟨c, hc1, hc2, hc3, hc4⟩ := ih ch h2
          exact ⟨c, List.mem_cons_of_mem _ hc1, hc2, hc3, hc4⟩
    · rw [if_neg h1] at h
      obtain ⟨c, hc1, hc2, hc3, hc4⟩ := ih ch h
      exact ⟨c, List.mem_cons_of_mem _ hc1, hc2, hc3, hc4⟩

theorem changesOf_fst_nodup (pair : SymPair) (vocab : List (List String × Nat)) :
    ∀ items : List (Nat × Int), (items.map Prod.fst).Nodup →
    ((changesOf pair vocab items).map (fun ch => ch.1)).Nodup := by
  intro items
  induction items with
  | nil => intro _; simp [changesOf]
  | cons it items ih =>
    intro hnd
    simp only [List.map_cons, List.nodup_cons] at hnd
    simp only [changesOf, List.filterMap_cons]
    by_cases h1 : (1 : Int) ≤ it.2
    · rw [if_pos h1]
      cases hv : vocab[it.1]? with
      | none =>
        dsimp only
        exact ih hnd.2
      | some e =>
        obtain ⟨w, f⟩ := e
        dsimp only
        simp only [List.map_cons, List.nodup_cons]
        refine ⟨fun hmem => ?_, ih hnd.2⟩
        obtain ⟨ch, hch, hfst⟩ := List.mem_map.1 hmem
        obtain ⟨c, hc1, _, _, _⟩ := changesOf_mem pair vocab items ch hch
        exact hnd.1 (hfst ▸ List.mem_map.2 ⟨(ch.1, c), hc1, rfl⟩)
    · rw [if_neg h1]
      exact ih hnd.2

theorem map_sum_single_key {α : Type*} (g : α → Int) (key : α → Nat) :
    ∀ (l : List α) (j : Nat), (l.map key).Nodup →
    ∀ x ∈ l, key x = j →
    (l.map (fun ch => if key ch = j then g ch else 0)).sum = g x := by
  intro l
  induction l with
  | nil => intro j _ x hx; cases hx
  | cons y l ih =>
    intro j hnd x hx hkx
    simp only [List.map_cons, List.nodup_cons] at hnd
    rw [List.map_cons, List.sum_cons]
    rcases List.mem_cons.1 hx with rfl | hx2
    · rw [if_pos hkx]
      have hz : (l.map (fun ch => if key ch = j then g ch else 0)).sum = 0 := by
        apply sum_eq_zero_int
        intro z hz
        obtain ⟨ch, hch, rfl⟩ := List.mem_map.1 hz
        rw [if_neg (fun hc =>
          hnd.1 (List.mem_map.2 ⟨ch, hch, hc.trans hkx.symm⟩))]
      rw [hz]
      ring
    · have hky : key y ≠ j := by
        intro hc
        exact hnd.1 (hc ▸ hkx ▸ List.mem_map.2 ⟨x, hx2, rfl⟩)
      rw [if_neg hky, ih j hnd.2 x hx2 hkx]
      ring

theorem gps_fold_idx_keys_nodup (i freq : Nat) (ps : List SymPair) :
    ∀ acc : Stats × Indices,
    (∀ q, ((alookupD [] acc.2 q).map Prod.fst).Nodup) →
    ∀ q, ((alookupD [] ((ps.foldl (gpsStep i freq) acc).2) q).map
      Prod.fst).Nodup := by
  induction ps with
  | nil => intro acc h q; exact h q
  | cons p ps ih =>
    intro acc h q
    rw [List.foldl_cons]
    apply ih
    intro q'
    show ((alookupD []
      (aset acc.2 p (aincr (alookupD [] acc.2 p) i 1)) q').map Prod.fst).Nodup
    by_cases hp : p = q'
    · subst hp
      rw [alookupD_aset_self]
      exact aset_keys_nodup _ _ _ (h p)
    · rw [alookupD_aset_ne _ _ _ _ _ hp]
      exact h q'

theorem gps_go_idx_keys_nodup (entries : List (List String × Nat)) :
    ∀ (i : Nat) (acc : Stats × Indices) (s : Stats) (ix : Indices),
    get_pair_statistics.go i entries acc = some (s, ix) →
    (∀ q, ((alookupD [] acc.2 q).map Prod.fst).Nodup) →
    ∀ q, ((alookupD [] ix q).map Prod.fst).Nodup := by
  induction entries with
  | nil =>
    intro i acc s ix h hn
    obtain rfl : acc.2 = ix := by
      have := Option.some.inj h
      simp [this]
    exact hn
  | cons e rest ih =>
    intro i acc s ix h hn
    obtain ⟨w, f⟩ := e
    rw [get_pair_statistics.go] at h
    by_cases hok : wordOk w
    · rw [if_pos hok] at h
      exact ih (i + 1) _ s ix h (gps_fold_idx_keys_nodup i f (wordPairs w) acc hn)
    · rw [if_neg hok] at h
      cases h

theorem gps_idx_keys_nodup (vocab : List (List String × Nat))
    (s : Stats) (ix : Indices)
    (h : get_pair_statistics vocab = some (s, ix)) :
    ∀ q, ((alookupD [] ix q).map Prod.fst).Nodup :=
  gps_go_idx_keys_nodup vocab 0 ([], []) s ix h (fun q => by
    show (([] : List (Nat × Int)).map Prod.fst).Nodup
    simp)

theorem replace_fold_trueFreq (pair : SymPair)
    (vocab : List (List String × Nat)) (q : SymPair) :
    ∀ (items : List (Nat × Int))
      (acc : List (List String × Nat) ×
        List (Nat × List String × List String × Nat)),
    (∀ it ∈ items, acc.1[it.1]? = vocab[it.1]?) →
    (items.map Prod.fst).Nodup →
    trueFreq ((items.foldl (replaceStep pair) acc).1) q =
      trueFreq acc.1 q + ((changesOf pair vocab items).map
        (fun c => (c.2.2.2 : Int) *
          (((wordPairs c.2.1).count q : Int) -
           ((wordPairs c.2.2.1).count q : Int)))).sum := by
  intro items
  induction items with
  | nil =>
    intro acc _ _
    show trueFreq acc.1 q = _
    simp [changesOf]
  | cons it items ih =>
    intro acc hagree hnd
    simp only [List.map_cons, List.nodup_cons] at hnd
    simp only [List.foldl_cons]
    have hagree' : ∀ it' ∈ items, acc.1[it'.1]? = vocab[it'.1]? :=
      fun it' h => hagree it' (List.mem_cons_of_mem _ h)
    by_cases h1 : it.2 < 1
    · have hskip : replaceStep pair acc it = acc := by
        unfold replaceStep
        rw [if_pos h1]
      have hco : changesOf pair vocab (it :: items) =
          changesOf pair vocab items := by
        simp only [changesOf, List.filterMap_cons]
        rw [if_neg (not_le.2 h1)]
      rw [hskip, hco, ih acc hagree' hnd.2]
    · have hge : (1 : Int) ≤ it.2 := not_lt.1 h1
      have hacc := hagree it (List.mem_cons_self _ _)
      cases hv : vocab[it.1]? with
      | none =>
        have hskip : replaceStep pair acc it = acc := by
          unfold replaceStep
          rw [if_neg h1, hacc, hv]
        have hco : changesOf pair vocab (it :: items) =
            changesOf pair vocab items := by
          simp only [changesOf, List.filterMap_cons]
          rw [if_pos hge, hv]
        rw [hskip, hco, ih acc hagree' hnd.2]
      | some e =>
        obtain ⟨w, f⟩ := e
        have hstep : replaceStep pair acc it =
            (acc.1.set it.1 (collapseWord (mergeWordTokens pair.1 pair.2 w), f),
             acc.2 ++ [(it.1, collapseWord (mergeWordTokens pair.1 pair.2 w),
               w, f)]) := by
          unfold replaceStep
          rw [if_neg h1, hacc, hv]
        have hco : changesOf pair vocab (it :: items) =
            (it.1, collapseWord (mergeWordTokens pair.1 pair.2 w), w, f) ::
              changesOf pair vocab items := by
          simp only [changesOf, List.filterMap_cons]
          rw [if_pos hge, hv]
        have hagree2 : ∀ it' ∈ items,
            (acc.1.set it.1 (collapseWord (mergeWordTokens pair.1 pair.2 w),
              f))[it'.1]? = vocab[it'.1]? := by
          intro it' h
          have hne : it.1 ≠ it'.1 := by
            intro hx
            exact hnd.1 (hx ▸ List.mem_map.2 ⟨it', h, rfl⟩)
          rw [List.getElem?_set_ne hne]
          exact hagree' it' h
        rw [hstep, hco, ih _ hagree2 hnd.2]
        dsimp only
        rw [trueFreq_set acc.1 it.1 w
          (collapseWord (mergeWordTokens pair.1 pair.2 w)) f
          (hacc.trans hv) q]
        rw [List.map_cons, List.sum_cons]
        ring

theorem changesOf_cov (pair : SymPair) (vocab : List (List String × Nat)) :
    ∀ (items : List (Nat × Int)) (j : Nat) (c : Int),
    (j, c) ∈ items → 1 ≤ c →
    ∀ e, vocab[j]? = some e →
    ∃ ch ∈ changesOf pair vocab items, ch.1 = j := by
  intro items
  induction items with
  | nil => intro j c h; cases h
  | cons it items ih =>
    intro j c h hc e hv
    rcases List.mem_cons.1 h with rfl | h2
    · refine ⟨((j, c).1, collapseWord (mergeWordTokens pair.1 pair.2 e.1),
        e.1, e.2), ?_, rfl⟩
      simp only [changesOf, List.filterMap_cons]
      rw [if_pos hc, hv]
      exact List.mem_cons_self _ _
    · obtain ⟨ch, hch, hj⟩ := ih j c h2 hc e hv
      refine ⟨ch, ?_, hj⟩
      simp only [changesOf, List.filterMap_cons]
      by_cases h1 : (1 : Int) ≤ it.2
      · rw [if_pos h1]
        cases hv2 : vocab[it.1]? with
        | none => exact hch
        | some e2 => exact List.mem_cons_of_mem _ hch
      · rw [if_neg h1]
        exact hch

theorem wordCountI_nonneg (vocab : List (List String × Nat)) (j : Nat)
    (q : SymPair) : 0 ≤ wordCountI vocab j q := by
  unfold wordCountI
  cases vocab[j]? with
  | none => exact le_refl 0
  | some e => positivity

theorem trueFreq_zero_of (v : List (List String × Nat)) (q : SymPair)
    (h : ∀ e ∈ v, (wordPairs e.1).count q = 0) : trueFreq v q = 0 := by
  unfold trueFreq
  apply sum_eq_zero_int
  intro x hx
  obtain ⟨e, he, rfl⟩ := List.mem_map.1 hx
  rw [h e he]
  norm_num

/-- Single-step exactness of the incremental update, from the exact initial
state built by `get_pair_statistics`: after `replace_pair` and
`update_pair_statistics` for a fresh merged pair on a delimiter-free
vocabulary, (i) the working statistics (with the main loop's final zeroing of
the merged pair) equals a full recount of the rewritten vocabulary at every
pair, (ii) the inverted index is exact at every non-merged pair, and (iii)
the merged pair's index entries are nonpositive while its true count is
zero. -/
theorem update_step_exact (a b : String) (vocab : List (List String × Nat))
    (s : Stats) (ix : Indices)
    (v' : List (List String × Nat))
    (chs : List (Nat × List String × List String × Nat))
    (s' : Stats) (ix' : Indices)
    (hg : get_pair_statistics vocab = some (s, ix))
    (hrep : replace_pair (a, b) vocab ix = (v', chs))
    (hupd : update_pair_statistics (a, b) chs s ix = (s', ix'))
    (hword : ∀ e ∈ vocab, "==" ∉ e.1 ∧ (a ++ b) ∉ e.1)
    (ha0 : a ≠ "") (hb0 : b ≠ "") (ha2 : a ≠ "==") (hb2 : b ≠ "==")
    (hnp2 : a ++ b ≠ "==") :
    (∀ q, alookupD 0 (aset s' (a, b) 0) q = trueFreq v' q) ∧
    (∀ q, q ≠ (a, b) → ∀ j : Nat,
      alookupD 0 (alookupD [] ix' q) j = wordCountI v' j q) ∧
    (∀ j : Nat, alookupD 0 (alookupD [] ix' (a, b)) j ≤ 0 ∧
      wordCountI v' j (a, b) = 0) := by
  have hsex := gps_stats_eq_trueFreq vocab s ix hg
  have hixex : ∀ q (j : Nat), alookupD 0 (alookupD [] ix q) j =
      wordCountI vocab j q := fun q j => gps_idx_eq_counts vocab s ix hg q j
  have hixnd := gps_idx_keys_nodup vocab s ix hg
  have hitems_val : ∀ it ∈ alookupD [] ix (a, b),
      it.2 = wordCountI vocab it.1 (a, b) := by
    intro it hit
    rw [← hixex (a, b) it.1]
    exact (alookupD_of_mem_nodup _ it.1 it.2 hit (hixnd (a, b))).symm
  have hrep' : (alookupD [] ix (a, b)).foldl (replaceStep (a, b)) (vocab, []) =
      (v', chs) := hrep
  have hv'eq : ((alookupD [] ix (a, b)).foldl (replaceStep (a, b))
      (vocab, [])).1 = v' := congrArg Prod.fst hrep'
  have hchs : chs = changesOf (a, b) vocab (alookupD [] ix (a, b)) := by
    have h2 := replace_fold_changes (a, b) vocab (alookupD [] ix (a, b))
      (vocab, []) (fun it _ => rfl) (hixnd (a, b))
    rw [hrep'] at h2
    simpa using h2
  have hW0 : ∀ j : Nat, wordCountI vocab j (a, b) = 0 → v'[j]? = vocab[j]? := by
    intro j hW
    rw [← hv'eq]
    exact (replace_fold_keyed (a, b) (alookupD [] ix (a, b)) (vocab, []) j
      (hixnd (a, b))).1 (by rw [hixex (a, b) j, hW]; norm_num)
  have hW1 : ∀ (j : Nat) (w : List String) (f : Nat),
      vocab[j]? = some (w, f) → wordCountI vocab j (a, b) ≠ 0 →
      v'[j]? = some (collapseWord (mergeWordTokens a b w), f) := by
    intro j w f hv hW
    rw [← hv'eq]
    have hpos : 0 < wordCountI vocab j (a, b) :=
      lt_of_le_of_ne (wordCountI_nonneg vocab j (a, b)) (Ne.symm hW)
    have hge : 1 ≤ alookupD 0 (alookupD [] ix (a, b)) j := by
      rw [hixex (a, b) j]
      simpa using Int.add_one_le_iff.2 hpos
    exact (replace_fold_keyed (a, b) (alookupD [] ix (a, b)) (vocab, []) j
      (hixnd (a, b))).2 hge w f hv
  have hchprop : ∀ c ∈ chs,
      vocab[c.1]? = some (c.2.2.1, c.2.2.2) ∧
      c.2.1 = collapseWord (mergeWordTokens a b c.2.2.1) ∧
      "==" ∉ c.2.2.1 ∧ (a ++ b) ∉ c.2.2.1 ∧
      wordCountI vocab c.1 (a, b) ≠ 0 := by
    intro c hc
    rw [hchs] at hc
    obtain ⟨cv, hc1, hc2, hc3, hc4⟩ := changesOf_mem (a, b) vocab _ c hc
    have hmem : (c.2.2.1, c.2.2.2) ∈ vocab := List.getElem?_mem hc3
    have hw := hword _ hmem
    refine ⟨hc3, hc4, hw.1, hw.2, ?_⟩
    have hval := hitems_val (c.1, cv) hc1
    dsimp only at hval
    intro h0
    rw [h0] at hval
    linarith
  have hupd' : chs.foldl (updWordStep (a, b))
      (aset s (a, b) 0, aset ix (a, b) []) = (s', ix') := by
    rw [← update_pair_statistics_eq]
    exact hupd
  have hfst : (chs.foldl (updWordStep (a, b))
      (aset s (a, b) 0, aset ix (a, b) [])).1 = s' := by
    rw [hupd']
  have hsnd : (chs.foldl (updWordStep (a, b))
      (aset s (a, b) 0, aset ix (a, b) [])).2 = ix' := by
    rw [hupd']
  have hs'eq : ∀ q, alookupD 0 s' q =
      alookupD 0 (aset s (a, b) 0) q +
        (chs.map (fun c => (c.2.2.2 : Int) *
          evSumAt (updateEvents (a, b) c.2.1 c.2.2.1) q)).sum := by
    intro q
    rw [← hfst]
    exact updWordStep_fold_stats (a, b) chs _ q
  have hix'eq : ∀ q (j : Nat), alookupD 0 (alookupD [] ix' q) j =
      alookupD 0 (alookupD [] (aset ix (a, b) []) q) j +
        (chs.map (fun c => if c.1 = j
          then evSumAt (updateEvents (a, b) c.2.1 c.2.2.1) q else 0)).sum := by
    intro q j
    rw [← hsnd]
    exact updWordStep_fold_idx (a, b) chs _ q j
  have hcnt_new : ∀ w : List String, "==" ∉ w → (a ++ b) ∉ w →
      (wordPairs (collapseWord (mergeWordTokens a b w))).count (a, b) = 0 := by
    intro w hw1 hw2
    have hmd : "==" ∉ mergeWordTokens a b w := by
      intro hx
      rcases mem_mergeWordTokens a b w "==" hx with h | h
      · exact hw1 h
      · exact hnp2 h.symm
    rw [collapseWord_no_delim _ hmd, wordPairs_no_delim _ hmd]
    have hz := merge_cntI_pair_zero a b ha0 hb0 w hw2
    unfold cntI at hz
    exact_mod_cast hz
  have hWcnt : ∀ j : Nat, wordCountI v' j (a, b) = 0 := by
    intro j
    by_cases hW : wordCountI vocab j (a, b) = 0
    · unfold wordCountI
      rw [hW0 j hW]
      exact hW
    · cases hv : vocab[j]? with
      | none =>
        exact absurd (by unfold wordCountI; rw [hv]) hW
      | some e =>
        obtain ⟨w, f⟩ := e
        unfold wordCountI
        rw [hW1 j w f hv hW]
        dsimp only
        have hw := hword (w, f) (List.getElem?_mem hv)
        exact_mod_cast hcnt_new w hw.1 hw.2
  have htf0 : trueFreq v' (a, b) = 0 := by
    apply trueFreq_zero_of
    intro e he
    obtain ⟨j, hj, hval⟩ := List.mem_iff_getElem.1 he
    have hj2 : v'[j]? = some e := by
      rw [List.getElem?_eq_getElem hj, hval]
    have hz := hWcnt j
    unfold wordCountI at hz
    rw [hj2] at hz
    dsimp only at hz
    exact_mod_cast hz
  have hmd : ∀ w : List String, "==" ∉ w → "==" ∉ mergeWordTokens a b w := by
    intro w hw1 hx
    rcases mem_mergeWordTokens a b w "==" hx with h | h
    · exact hw1 h
    · exact hnp2 h.symm
  refine ⟨?_, ?_, ?_⟩
  · intro q
    by_cases hq : q = (a, b)
    · subst hq
      rw [alookupD_aset_self, htf0]
    · rw [alookupD_aset_ne _ _ _ _ _ (Ne.symm hq), hs'eq q,
        alookupD_aset_ne _ _ _ _ _ (Ne.symm hq), hsex q]
      have htf := replace_fold_trueFreq (a, b) vocab q
        (alookupD [] ix (a, b)) (vocab, []) (fun it _ => rfl) (hixnd (a, b))
      rw [hrep'] at htf
      dsimp only at htf
      rw [htf, ← hchs]
      congr 1
      refine congrArg List.sum (List.map_congr_left ?_)
      intro c hc
      obtain ⟨hp1, hp2, hp3, hp4, _⟩ := hchprop c hc
      rw [hp2, updateEvents_delta a b c.2.2.1 hp3 hp4 ha0 hb0 ha2 hb2 hnp2 q hq,
        collapseWord_no_delim _ (hmd c.2.2.1 hp3),
        wordPairs_no_delim _ (hmd c.2.2.1 hp3), wordPairs_no_delim _ hp3]
      unfold cntI
      ring
  · intro q hq j
    rw [hix'eq q j, alookupD_aset_ne _ _ _ _ _ (Ne.symm hq), hixex q j]
    by_cases hex : ∃ c ∈ chs, c.1 = j
    · obtain ⟨c0, hc0, hc0j⟩ := hex
      have hnd2 : (chs.map (fun c => c.1)).Nodup := by
        rw [hchs]
        exact changesOf_fst_nodup (a, b) vocab _ (hixnd (a, b))
      rw [map_sum_single_key
        (fun c => evSumAt (updateEvents (a, b) c.2.1 c.2.2.1) q)
        (fun c => c.1) chs j hnd2 c0 hc0 hc0j]
      obtain ⟨hp1, hp2, hp3, hp4, hp5⟩ := hchprop c0 hc0
      rw [hp2, updateEvents_delta a b c0.2.2.1 hp3 hp4 ha0 hb0 ha2 hb2 hnp2 q hq]
      have hvj : v'[j]? = some (collapseWord (mergeWordTokens a b c0.2.2.1),
          c0.2.2.2) := by
        rw [← hc0j]
        exact hW1 c0.1 c0.2.2.1 c0.2.2.2 hp1 hp5
      have hrhs : wordCountI v' j q = cntI (mergeWordTokens a b c0.2.2.1) q := by
        unfold wordCountI
        rw [hvj]
        dsimp only
        rw [collapseWord_no_delim _ (hmd c0.2.2.1 hp3),
          wordPairs_no_delim _ (hmd c0.2.2.1 hp3)]
        rfl
      have hlhs : wordCountI vocab j q = cntI c0.2.2.1 q := by
        unfold wordCountI
        rw [← hc0j, hp1]
        dsimp only
        rw [wordPairs_no_delim _ hp3]
        rfl
      rw [hrhs, hlhs]
      ring
    · have hsum0 : (chs.map (fun c => if c.1 = j
          then evSumAt (updateEvents (a, b) c.2.1 c.2.2.1) q else 0)).sum = 0 := by
        apply sum_eq_zero_int
        intro z hz
        obtain ⟨c, hc, rfl⟩ := List.mem_map.1 hz
        rw [if_neg (fun hcj => hex ⟨c, hc, hcj⟩)]
      rw [hsum0]
      have hnochange : v'[j]? = vocab[j]? := by
        by_cases hW : wordCountI vocab j (a, b) = 0
        · exact hW0 j hW
        · exfalso
          have hjmem : j ∈ (alookupD [] ix (a, b)).map Prod.fst := by
            by_contra hno
            exact hW (by rw [← hixex (a, b) j,
              alookupD_eq_default_of_not_mem _ _ _ hno])
          have hmem2 := alookupD_mem_of_mem_keys _ j hjmem
          have hge : 1 ≤ alookupD 0 (alookupD [] ix (a, b)) j := by
            rw [hixex (a, b) j]
            have hpos2 : 0 < wordCountI vocab j (a, b) :=
              lt_of_le_of_ne (wordCountI_nonneg vocab j (a, b)) (Ne.symm hW)
            simpa using Int.add_one_le_iff.2 hpos2
          cases hv : vocab[j]? with
          | none => exact hW (by unfold wordCountI; rw [hv])
          | some e =>
            obtain ⟨ch, hch, hchj⟩ := changesOf_cov (a, b) vocab _ j _
              hmem2 hge e hv
            exact hex ⟨ch, hchs.symm ▸ hch, hchj⟩
      have hr : wordCountI v' j q = wordCountI vocab j q := by
        unfold wordCountI
        rw [hnochange]
      rw [hr]
      ring
  · intro j
    refine ⟨?_, hWcnt j⟩
    rw [hix'eq (a, b) j, alookupD_aset_self]
    have hz0 : alookupD 0 ([] : List (Nat × Int)) j = 0 := rfl
    rw [hz0]
    have hle : ∀ x ∈ chs.map (fun c => if c.1 = j
        then evSumAt (updateEvents (a, b) c.2.1 c.2.2.1) (a, b) else 0),
        x ≤ 0 := by
      intro x hx
      obtain ⟨c, hc, rfl⟩ := List.mem_map.1 hx
      obtain ⟨hp1, hp2, hp3, hp4, hp5⟩ := hchprop c hc
      by_cases hcj : c.1 = j
      · rw [if_pos hcj, hp2]
        exact updateEvents_pair_nonpos a b c.2.2.1 hp3 ha0 hb0 hnp2
      · rw [if_neg hcj]
    have hsle := sum_nonpos_of_nonpos _ hle
    linarith

/-- C1: the claim of unconditional bit-identity between the incremental
tables and a full recount is false (see `C1_counterexample`); amended: after
one merge step from the exact initial tables, on a delimiter-free vocabulary
whose merged symbol is fresh, the incrementally maintained statistics —
together with the main loop's zeroing of the merged pair — coincide with a
brute-force recount (`get_pair_statistics`-style true frequencies) over the
rewritten vocabulary for every pair, and the inverted index coincides with
the recount at every pair other than the merged pair; the merged pair
retains nonpositive stale index entries while its true occurrence count is
zero. -/
theorem C1_incremental_matches_recount (a b : String)
    (vocab : List (List String × Nat)) (s : Stats) (ix : Indices)
    (v' : List (List String × Nat))
    (chs : List (Nat × List String × List String × Nat))
    (s' : Stats) (ix' : Indices)
    (hg : get_pair_statistics vocab = some (s, ix))
    (hrep : replace_pair (a, b) vocab ix = (v', chs))
    (hupd : update_pair_statistics (a, b) chs s ix = (s', ix'))
    (hword : ∀ e ∈ vocab, "==" ∉ e.1 ∧ (a ++ b) ∉ e.1)
    (ha0 : a ≠ "") (hb0 : b ≠ "") (ha2 : a ≠ "==") (hb2 : b ≠ "==")
    (hnp2 : a ++ b ≠ "==") :
    (∀ q, alookupD 0 (aset s' (a, b) 0) q = trueFreq v' q) ∧
    (∀ q, q ≠ (a, b) → ∀ j : Nat,
      alookupD 0 (alookupD [] ix' q) j = wordCountI v' j q) ∧
    (∀ j : Nat, alookupD 0 (alookupD [] ix' (a, b)) j ≤ 0 ∧
      wordCountI v' j (a, b) = 0) :=
  update_step_exact a b vocab s ix v' chs s' ix' hg hrep hupd hword
    ha0 hb0 ha2 hb2 hnp2

/-- A small delimiter-free vocabulary for exercising one exact merge step. -/
def c1vocab : List (List String × Nat) :=
  [(["a", "b", "</w>"], 2), (["b", "a", "b", "c"], 1)]

def c1s : Stats :=
  [(("a", "b"), 3), (("b", "</w>"), 2), (("b", "a"), 1), (("b", "c"), 1)]

def c1ix : Indices :=
  [(("a", "b"), [(0, 1), (1, 1)]), (("b", "</w>"), [(0, 1)]),
   (("b", "a"), [(1, 1)]), (("b", "c"), [(1, 1)])]

def c1v' : List (List String × Nat) :=
  [(["ab", "</w>"], 2), (["b", "ab", "c"], 1)]

def c1chs : List (Nat × List String × List String × Nat) :=
  [(0, ["ab", "</w>"], ["a", "b", "</w>"], 2),
   (1, ["b", "ab", "c"], ["b", "a", "b", "c"], 1)]

def c1s' : Stats :=
  [(("a", "b"), 0), (("b", "</w>"), 0), (("b", "a"), 0), (("b", "c"), 0),
   (("ab", "</w>"), 2), (("b", "ab"), 1), (("ab", "c"), 1)]

def c1ix' : Indices :=
  [(("a", "b"), []), (("b", "</w>"), [(0, 0)]), (("b", "a"), [(1, 0)]),
   (("b", "c"), [(1, 0)]), (("ab", "</w>"), [(0, 1)]), (("b", "ab"), [(1, 1)]),
   (("ab", "c"), [(1, 1)])]

theorem C1_incremental_matches_recount_witness :
    (get_pair_statistics c1vocab = some (c1s, c1ix) ∧
     replace_pair ("a", "b") c1vocab c1ix = (c1v', c1chs) ∧
     update_pair_statistics ("a", "b") c1chs c1s c1ix = (c1s', c1ix')) ∧
    (alookupD 0 (aset c1s' ("a", "b") 0) ("ab", "</w>") =
       trueFreq c1v' ("ab", "</w>") ∧
     alookupD 0 (alookupD [] c1ix' ("ab", "</w>")) 0 =
       wordCountI c1v' 0 ("ab", "</w>") ∧
     alookupD 0 (alookupD [] c1ix' ("a", "b")) 0 ≤ 0 ∧
     wordCountI c1v' 0 ("a", "b") = 0) := by
  have h := C1_incremental_matches_recount "a" "b" c1vocab c1s c1ix c1v' c1chs
    c1s' c1ix' rfl rfl rfl (by decide) (by decide) (by decide) (by decide)
    (by decide) (by decide)
  exact ⟨⟨rfl, rfl, rfl⟩,
    h.1 ("ab", "</w>"), h.2.1 ("ab", "</w>") (by decide) 0, (h.2.2 0).1,
    (h.2.2 0).2⟩

/-- C2: the claim that `big_stats` always equals the true global frequency is
false (see `C2_counterexample`); amended: a non-pruning, non-repair loop
iteration leaves `big_stats` entirely untouched while the vocabulary (and so
the true frequencies) change — the full table is only resynchronized at
prune points — whereas the working statistics after one merge step from the
exact initial state (with the loop's zeroing of the merged pair, on a
delimiter-free vocabulary with a fresh merged symbol) does equal the true
global frequency at every pair. -/
theorem C2_working_exact_full_stale :
    (∀ (minFreq : Int) (i : Nat) (st : BpeState) (p : SymPair) (v : Int),
      argmaxEntry st.stats = some (p, v) →
      ¬(i ≠ 0 ∧ intLtFrac v st.threshold = true) →
      ¬(v < minFreq) → i % 100 ≠ 0 →
      ∃ st' : BpeState, bpe_step minFreq i st = some (Sum.inl st') ∧
        st'.bigStats = st.bigStats ∧
        st'.vocab = (replace_pair p st.vocab
          (if (st.indices.map Prod.fst).contains p then st.indices
           else st.indices ++ [(p, [])])).1) ∧
    (∀ (a b : String) (vocab : List (List String × Nat)) (s : Stats)
       (ix : Indices) (v' : List (List String × Nat))
       (chs : List (Nat × List String × List String × Nat))
       (s' : Stats) (ix' : Indices),
      get_pair_statistics vocab = some (s, ix) →
      replace_pair (a, b) vocab ix = (v', chs) →
      update_pair_statistics (a, b) chs s ix = (s', ix') →
      (∀ e ∈ vocab, "==" ∉ e.1 ∧ (a ++ b) ∉ e.1) →
      a ≠ "" → b ≠ "" → a ≠ "==" → b ≠ "==" → a ++ b ≠ "==" →
      ∀ q, alookupD 0 (aset s' (a, b) 0) q = trueFreq v' q) := by
  constructor
  · intro minFreq i st p v hmax hnorep hfloor hprune
    unfold bpe_step bpe_select
    rw [hmax]
    dsimp only
    rw [if_neg hnorep]
    dsimp only
    rw [if_neg hfloor]
    rcases hrp : replace_pair p st.vocab
        (if (st.indices.map Prod.fst).contains p then st.indices
         else st.indices ++ [(p, [])]) with ⟨vocab', changes⟩
    rcases hup : update_pair_statistics p changes st.stats
        (if (st.indices.map Prod.fst).contains p then st.indices
         else st.indices ++ [(p, [])]) with ⟨stats', indices'⟩
    refine ⟨{ vocab := vocab', stats := aset stats' p 0,
              bigStats := st.bigStats, indices := indices',
              threshold := st.threshold, rules := st.rules ++ [p],
              note := st.note }, ?_, rfl, by simp [hrp]⟩
    simp only [hrp, hup, hprune, if_false]
  · intro a b vocab s ix v' chs s' ix' hg hrep hupd hword ha0 hb0 ha2 hb2 hnp2
    exact (update_step_exact a b vocab s ix v' chs s' ix' hg hrep hupd hword
      ha0 hb0 ha2 hb2 hnp2).1

/-- A loop state over the small vocabulary, for the staleness witness. -/
def c2st : BpeState :=
  ⟨c1vocab, c1s, c1s, c1ix, ⟨3, 10⟩, [], false⟩

theorem C2_working_exact_full_stale_witness :
    ((argmaxEntry c2st.stats = some (("a", "b"), 3) ∧ 1 % 100 ≠ 0) ∧
     (∃ st' : BpeState, bpe_step 1 1 c2st = some (Sum.inl st') ∧
        st'.bigStats = c2st.bigStats ∧
        st'.vocab = (replace_pair ("a", "b") c2st.vocab
          (if (c2st.indices.map Prod.fst).contains ("a", "b") then c2st.indices
           else c2st.indices ++ [(("a", "b"), [])])).1)) ∧
    alookupD 0 (aset c1s' ("a", "b") 0) ("b", "ab") =
      trueFreq c1v' ("b", "ab") := by
  have h := C2_working_exact_full_stale
  exact ⟨⟨⟨rfl, by decide⟩,
      h.1 1 1 c2st ("a", "b") 3 rfl (by decide) (by decide) (by decide)⟩,
    h.2 "a" "b" c1vocab c1s c1ix c1v' c1chs c1s' c1ix' rfl rfl rfl (by decide)
      (by decide) (by decide) (by decide) (by decide) (by decide) ("b", "ab")⟩
